import Mathlib

/-!
Verification of the jpeg.js decoder core against its specification.

This file shallowly embeds the relevant parts of the JavaScript sources
(`arithmetic.js` — the `Statistics`/`Coder`/`Decoder` classes actually used by
`jpeg.js`; `huffman.js`; `jpeg.js`) as executable Lean definitions and proves
(or refutes) the specification claims about them.

Modelling conventions, used throughout:

* JavaScript `Number` values that only ever hold nonnegative integers are
  modelled as `Nat`.  Where JavaScript coerces a value to a 32-bit integer
  (the bitwise operators `<<`, `>>>`, `|`, `&`), the model applies `% 2 ^ 32`;
  all further uses of such registers in the sources are congruence-respecting
  (shifts, masks, additions, and comparisons made through `>>> 16`), so the
  `Nat`-mod-`2^32` view agrees with JavaScript's signed-int32 view bit for bit.
* Out-of-range array reads (which yield `undefined` in JavaScript and make a
  subsequent property access throw a `TypeError`) are modelled with `Except`.
* `while` loops whose termination is not structural are given an explicit
  fuel parameter; the fuel chosen at each call site is proved (or chosen)
  large enough that the loop always reaches its exit condition first, except
  where a claim is precisely about non-conforming inputs, in which case fuel
  exhaustion is reported as an error.
-/

set_option maxRecDepth 10000

namespace Jpeg

/-- `2 ^ 32`, the modulus of JavaScript's 32-bit integer coercions. -/
def pow32 : Nat := 2 ^ 32

/-! ## The probability state machine (arithmetic.js)

One row of the probability estimation state machine: the LPS probability
estimate `Qe`, the successor states after an LPS / a renormalizing MPS, and
whether taking the LPS branch exchanges the more-probable-symbol sense.
Field names follow the source (`probability`, `nextLPS`, `nextMPS`,
`swapMPS`); `swapMPS` is kept as the 0/1 flag used in the source. -/
structure StateEntry where
  probability : Nat
  nextLPS : Nat
  nextMPS : Nat
  swapMPS : Nat
deriving DecidableEq, Repr

/-- The `stateTable` constant of arithmetic.js (the table the JPEG decoder
uses; the one defined next to the `Statistics`, `Coder` and `Decoder`
classes). -/
def stateTableA : List StateEntry := [
  ⟨0x5A1D, 1, 1, 1⟩,
  ⟨0x2586, 14, 2, 0⟩,
  ⟨0x1114, 16, 3, 0⟩,
  ⟨0x080B, 18, 4, 0⟩,
  ⟨0x03D8, 20, 5, 0⟩,
  ⟨0x01DA, 23, 6, 0⟩,
  ⟨0x00E5, 25, 7, 0⟩,
  ⟨0x006F, 28, 8, 0⟩,
  ⟨0x0036, 30, 9, 0⟩,
  ⟨0x001A, 33, 10, 0⟩,
  ⟨0x000D, 35, 11, 0⟩,
  ⟨0x0006, 9, 12, 0⟩,
  ⟨0x0003, 10, 13, 0⟩,
  ⟨0x0001, 12, 13, 0⟩,
  ⟨0x5A7F, 15, 15, 1⟩,
  ⟨0x3F25, 36, 16, 0⟩,
  ⟨0x2CF2, 38, 17, 0⟩,
  ⟨0x207C, 39, 18, 0⟩,
  ⟨0x17B9, 40, 19, 0⟩,
  ⟨0x1182, 42, 20, 0⟩,
  ⟨0x0CEF, 43, 21, 0⟩,
  ⟨0x09A1, 45, 22, 0⟩,
  ⟨0x072F, 46, 23, 0⟩,
  ⟨0x055C, 48, 24, 0⟩,
  ⟨0x0406, 49, 25, 0⟩,
  ⟨0x0303, 51, 26, 0⟩,
  ⟨0x0240, 52, 27, 0⟩,
  ⟨0x01B1, 54, 28, 0⟩,
  ⟨0x0144, 56, 29, 0⟩,
  ⟨0x00F5, 57, 30, 0⟩
  ]

def stateTableB : List StateEntry := [
  ⟨0x00B7, 59, 31, 0⟩,
  ⟨0x008A, 60, 32, 0⟩,
  ⟨0x0068, 62, 33, 0⟩,
  ⟨0x004E, 63, 34, 0⟩,
  ⟨0x003B, 32, 35, 0⟩,
  ⟨0x002C, 33, 9, 0⟩,
  ⟨0x5AE1, 37, 37, 1⟩,
  ⟨0x484C, 64, 38, 0⟩,
  ⟨0x3A0D, 65, 39, 0⟩,
  ⟨0x2EF1, 67, 40, 0⟩,
  ⟨0x261F, 68, 41, 0⟩,
  ⟨0x1F33, 69, 42, 0⟩,
  ⟨0x19A8, 70, 43, 0⟩,
  ⟨0x1518, 72, 44, 0⟩,
  ⟨0x1177, 73, 45, 0⟩,
  ⟨0x0E74, 74, 46, 0⟩,
  ⟨0x0BFB, 75, 47, 0⟩,
  ⟨0x09F8, 77, 48, 0⟩,
  ⟨0x0861, 78, 49, 0⟩,
  ⟨0x0706, 79, 50, 0⟩,
  ⟨0x05CD, 48, 51, 0⟩,
  ⟨0x04DE, 50, 52, 0⟩,
  ⟨0x040F, 50, 53, 0⟩,
  ⟨0x0363, 51, 54, 0⟩,
  ⟨0x02D4, 52, 55, 0⟩,
  ⟨0x025C, 53, 56, 0⟩,
  ⟨0x01F8, 54, 57, 0⟩,
  ⟨0x01A4, 55, 58, 0⟩,
  ⟨0x0160, 56, 59, 0⟩,
  ⟨0x0125, 57, 60, 0⟩
  ]

def stateTableC : List StateEntry := [
  ⟨0x00F6, 58, 61, 0⟩,
  ⟨0x00CB, 59, 62, 0⟩,
  ⟨0x00AB, 61, 63, 0⟩,
  ⟨0x008F, 61, 32, 0⟩,
  ⟨0x5B12, 65, 65, 1⟩,
  ⟨0x4D04, 80, 66, 0⟩,
  ⟨0x412C, 81, 67, 0⟩,
  ⟨0x37D8, 82, 68, 0⟩,
  ⟨0x2FE8, 83, 69, 0⟩,
  ⟨0x293C, 84, 70, 0⟩,
  ⟨0x2379, 86, 71, 0⟩,
  ⟨0x1EDF, 87, 72, 0⟩,
  ⟨0x1AA9, 87, 73, 0⟩,
  ⟨0x174E, 72, 74, 0⟩,
  ⟨0x1424, 72, 75, 0⟩,
  ⟨0x119C, 74, 76, 0⟩,
  ⟨0x0F6B, 74, 77, 0⟩,
  ⟨0x0D51, 75, 78, 0⟩,
  ⟨0x0BB6, 77, 79, 0⟩,
  ⟨0x0A40, 77, 48, 0⟩,
  ⟨0x5832, 80, 81, 1⟩,
  ⟨0x4D1C, 88, 82, 0⟩,
  ⟨0x438E, 89, 83, 0⟩,
  ⟨0x3BDD, 90, 84, 0⟩,
  ⟨0x34EE, 91, 85, 0⟩,
  ⟨0x2EAE, 92, 86, 0⟩,
  ⟨0x299A, 93, 87, 0⟩,
  ⟨0x2516, 86, 71, 0⟩,
  ⟨0x5570, 88, 89, 1⟩,
  ⟨0x4CA9, 95, 90, 0⟩
  ]

def stateTableD : List StateEntry := [
  ⟨0x44D9, 96, 91, 0⟩,
  ⟨0x3E22, 97, 92, 0⟩,
  ⟨0x3824, 99, 93, 0⟩,
  ⟨0x32B4, 99, 94, 0⟩,
  ⟨0x2E17, 93, 86, 0⟩,
  ⟨0x56A8, 95, 96, 1⟩,
  ⟨0x4F46, 101, 97, 0⟩,
  ⟨0x47E5, 102, 98, 0⟩,
  ⟨0x41CF, 103, 99, 0⟩,
  ⟨0x3C3D, 104, 100, 0⟩,
  ⟨0x375E, 99, 93, 0⟩,
  ⟨0x5231, 105, 102, 0⟩,
  ⟨0x4C0F, 106, 103, 0⟩,
  ⟨0x4639, 107, 104, 0⟩,
  ⟨0x415E, 103, 99, 0⟩,
  ⟨0x5627, 105, 106, 1⟩,
  ⟨0x50E7, 108, 107, 0⟩,
  ⟨0x4B85, 109, 103, 0⟩,
  ⟨0x5597, 110, 109, 0⟩,
  ⟨0x504F, 111, 107, 0⟩,
  ⟨0x5A10, 110, 111, 1⟩,
  ⟨0x5522, 112, 109, 0⟩,
  ⟨0x59EB, 112, 111, 1⟩
  ]

def stateTable : List StateEntry := stateTableA ++ stateTableB ++ stateTableC ++ stateTableD

/-! ## Statistics bins (arithmetic.js, class `Statistics`) -/

/-- Per-context decoder statistics: `moreProbableSymbol[ctx]` and
`states[ctx]` (an index into `stateTable`). -/
structure Statistics where
  moreProbableSymbol : List Bool
  states : List Nat
deriving DecidableEq, Repr

/-- The `Statistics` constructor: `nContexts` contexts, all initialised to
state 0 with more-probable symbol `false`. -/
def Statistics.init (nContexts : Nat) : Statistics :=
  ⟨List.replicate nContexts false, List.replicate nContexts 0⟩

/-- `Statistics.prototype.reset`: fill `moreProbableSymbol` with `false` and
`states` with 0 (lengths unchanged). -/
def Statistics.reset (s : Statistics) : Statistics :=
  ⟨s.moreProbableSymbol.map (fun _ => false), s.states.map (fun _ => 0)⟩

/-- Errors of the embedded JavaScript code.  `typeError` models a crash from
accessing a property of `undefined` after an out-of-range array read;
`thrown` models an explicit `throw new Error(...)`; `fuelExhausted` models a
loop that fails to terminate within the modelled iteration bound. -/
inductive JsError where
  | typeError
  | thrown
  | fuelExhausted
deriving DecidableEq, Repr

/-! ## The arithmetic encoder (arithmetic.js, class `Coder`) -/

structure Coder where
  intervalBase : Nat
  intervalSize : Nat
  neededBits : Nat
  output : List Nat
deriving DecidableEq, Repr

/-- A fresh `Coder` (the constructor). -/
def Coder.init : Coder := ⟨0, 0x10000, 11, []⟩

/-- The carry-propagation loop of `emitOutputByte`, acting on the *reversed*
output list.  In the source the loop walks `precedingIndex` backwards from the
end: while it sees a `0x00` preceded by `0xFF` it splices out the `0xFF`
(leaving the zero) and moves two positions back; at the end it increments the
byte it stopped on, if any. -/
def rippleCarryRev : List Nat → List Nat
  | 0 :: 0xFF :: rest => 0 :: rippleCarryRev rest
  | b :: rest => (b + 1) :: rest
  | [] => []

/-- `Coder.prototype.emitOutputByte`. -/
def Coder.emitOutputByte (c : Coder) : Coder :=
  let outputByte := c.intervalBase >>> 19
  let carried :=
    if outputByte > 0xFF then
      ((rippleCarryRev c.output.reverse).reverse, outputByte &&& 0xFF)
    else (c.output, outputByte)
  let output :=
    if carried.2 = 0xFF then carried.1 ++ [0xFF, 0] else carried.1 ++ [carried.2]
  { c with output := output, intervalBase := c.intervalBase &&& 0x7FFFF }

/-- The `while (this.intervalSize < 0x8000)` loop of
`Coder.prototype.renormalize`, with fuel.  `intervalSize` is always at least
1 on entry, so at most 16 iterations can occur; fuel 32 is never exhausted. -/
def Coder.renormLoop : Nat → Coder → Coder
  | 0, c => c
  | fuel + 1, c =>
    if c.intervalSize < 0x8000 then
      let c := { c with intervalSize := (c.intervalSize <<< 1) % pow32,
                        intervalBase := (c.intervalBase <<< 1) % pow32,
                        neededBits := c.neededBits - 1 }
      let c := if c.neededBits = 0 then { c.emitOutputByte with neededBits := 8 } else c
      Coder.renormLoop fuel c
    else c

/-- `Coder.prototype.renormalize`. -/
def Coder.renormalize (c : Coder) : Coder := Coder.renormLoop 32 c

/-- `Coder.prototype.encodeMPS`.  Returns the `transition` flag (the source
returns `true` after renormalizing, `undefined` otherwise) together with the
updated coder. -/
def Coder.encodeMPS (c : Coder) (probability : Nat) : Bool × Coder :=
  let c := { c with intervalSize := c.intervalSize - probability }
  if c.intervalSize < 0x8000 then
    let c :=
      if c.intervalSize < probability then
        { c with intervalBase := c.intervalBase + c.intervalSize,
                 intervalSize := probability }
      else c
    (true, c.renormalize)
  else
    (false, c)

/-- `Coder.prototype.encodeLPS`. -/
def Coder.encodeLPS (c : Coder) (probability : Nat) : Coder :=
  let c :=
    if c.intervalSize - probability < probability then
      { c with intervalSize := c.intervalSize - probability }
    else
      { c with intervalBase := c.intervalBase + (c.intervalSize - probability),
               intervalSize := probability }
  c.renormalize

/-- `Coder.prototype.encodeDecision`.  The pair returned is
`(nextState, swapMPS)`, where `nextState = 0` models the falsy value the
source returns when no state transition should be stored (no row of
`stateTable` has 0 as a successor, so 0 is never a genuine transition). -/
def Coder.encodeDecision (c : Coder) (bit mps : Bool)
    (probability nextStateMPS nextStateLPS swapMPS : Nat) : (Nat × Bool) × Coder :=
  if bit = mps then
    let r := c.encodeMPS probability
    ((if r.1 then nextStateMPS else 0, false), r.2)
  else
    let c := c.encodeLPS probability
    ((nextStateLPS, swapMPS ≠ 0), c)

/-- `Coder.prototype.encodeBit`. -/
def Coder.encodeBit (c : Coder) (stats : Statistics) (bit : Bool) (context : Nat) :
    Except JsError (Coder × Statistics) :=
  match stats.states.get? context with
  | none => .error .typeError
  | some si =>
    match stateTable.get? si with
    | none => .error .typeError
    | some state =>
      let mps := stats.moreProbableSymbol.getD context false
      let r := c.encodeDecision bit mps state.probability state.nextMPS state.nextLPS state.swapMPS
      let stats :=
        if r.1.1 ≠ 0 then { stats with states := stats.states.set context r.1.1 } else stats
      let stats :=
        if r.1.2 then
          { stats with moreProbableSymbol := stats.moreProbableSymbol.set context (!mps) }
        else stats
      .ok (r.2, stats)

/-- Encode a list of bits, all with the same context index (the bit-by-bit
use of `encodeBit` described by the round-trip law). -/
def Coder.encodeBits (c : Coder) (stats : Statistics) (context : Nat) :
    List Bool → Except JsError (Coder × Statistics)
  | [] => .ok (c, stats)
  | b :: rest =>
    match c.encodeBit stats b context with
    | .error e => .error e
    | .ok cs => cs.1.encodeBits cs.2 context rest

/-- `while (output[last] === 0) output.pop()` from `flush`. -/
def stripTrailingZeros (output : List Nat) : List Nat :=
  (output.reverse.dropWhile (· = 0)).reverse

/-- `Coder.prototype.flush`: pick a point inside the final interval with a
zero tail, push the remaining bits through `emitOutputByte`, strip trailing
zero bytes, and re-append a stuffing zero if the output now ends in `0xFF`. -/
def Coder.flush (c : Coder) : List Nat :=
  let intervalTop := c.intervalBase + c.intervalSize - 1
  let chosenPoint := intervalTop &&& 0xFFFF0000
  let chosenPoint := if chosenPoint < c.intervalBase then chosenPoint + 0x8000 else chosenPoint
  let c := { c with intervalBase := (chosenPoint <<< c.neededBits) % pow32 }
  let c := c.emitOutputByte
  let c := { c with intervalBase := (c.intervalBase <<< 8) % pow32 }
  let c := c.emitOutputByte
  let output := stripTrailingZeros c.output
  if output.getLast? = some 0xFF then output ++ [0] else output

/-! ## The arithmetic decoder (arithmetic.js, class `Decoder`) -/

structure Decoder where
  intervalBase : Nat
  intervalSize : Nat
  neededBits : Nat
  input : List Nat
deriving DecidableEq, Repr

/-- `Decoder.prototype.consumeInputByte`: at end of input, act as if the
input were padded with zeroes; otherwise shift the next byte into bits 8–15
of the interval base. -/
def Decoder.consumeInputByte (d : Decoder) : Decoder :=
  match d.input with
  | [] => d
  | b :: rest => { d with intervalBase := (d.intervalBase + (b <<< 8)) % pow32, input := rest }

/-- The `Decoder` constructor: prime the pipeline with two input bytes. -/
def Decoder.init (input : List Nat) : Decoder :=
  let d : Decoder := ⟨0, 0x10000, 0, input⟩
  let d := d.consumeInputByte
  let d := { d with intervalBase := (d.intervalBase <<< 8) % pow32 }
  let d := d.consumeInputByte
  { d with intervalBase := (d.intervalBase <<< 8) % pow32 }

/-- The do/while loop of `Decoder.prototype.renormalize`, with fuel (the body
runs at least once; `intervalSize ≥ 1` on entry bounds the iterations by 16,
so fuel 32 is never exhausted). -/
def Decoder.renormLoop : Nat → Decoder → Decoder
  | 0, d => d
  | fuel + 1, d =>
    let d := if d.neededBits = 0 then { d.consumeInputByte with neededBits := 8 } else d
    let d := { d with intervalSize := (d.intervalSize <<< 1) % pow32,
                      intervalBase := (d.intervalBase <<< 1) % pow32,
                      neededBits := d.neededBits - 1 }
    if d.intervalSize < 0x8000 then Decoder.renormLoop fuel d else d

/-- `Decoder.prototype.renormalize`. -/
def Decoder.renormalize (d : Decoder) : Decoder := Decoder.renormLoop 32 d

/-- `Decoder.prototype.decodeDecision`.  Returns
`(result, nextState, swapMPS)` with `nextState = 0` for the source's `null`
(no row of `stateTable` has 0 as a successor).  The source performs one
`renormalize()` call after the if/else unless it takes the early
`return [mps, null, false]`; the model mirrors that control flow. -/
def Decoder.decodeDecision (d : Decoder) (probability : Nat) (mps : Bool)
    (nextStateMPS nextStateLPS swapMPS : Nat) : (Bool × Nat × Bool) × Decoder :=
  let d := { d with intervalSize := d.intervalSize - probability }
  if d.intervalBase >>> 16 < d.intervalSize then
    if d.intervalSize < 0x8000 then
      let result := Bool.xor (decide (d.intervalSize < probability)) mps
      let d := d.renormalize
      ((result, if result = mps then nextStateMPS else nextStateLPS,
        (result ≠ mps) && swapMPS ≠ 0), d)
    else
      ((mps, 0, false), d)
  else
    let result := Bool.xor (decide (d.intervalSize ≥ probability)) mps
    let d := { d with
        intervalBase := (d.intervalBase + pow32 - (d.intervalSize <<< 16) % pow32) % pow32,
        intervalSize := probability }
    let d := d.renormalize
    ((result, if result = mps then nextStateMPS else nextStateLPS,
      (result ≠ mps) && swapMPS ≠ 0), d)

/-- `Decoder.prototype.decodeBit`. -/
def Decoder.decodeBit (d : Decoder) (stats : Statistics) (context : Nat) :
    Except JsError (Bool × Decoder × Statistics) :=
  match stats.states.get? context with
  | none => .error .typeError
  | some si =>
    match stateTable.get? si with
    | none => .error .typeError
    | some state =>
      let mps := stats.moreProbableSymbol.getD context false
      let r := d.decodeDecision state.probability mps state.nextMPS state.nextLPS state.swapMPS
      let stats :=
        if r.1.2.1 ≠ 0 then { stats with states := stats.states.set context r.1.2.1 } else stats
      let stats :=
        if r.1.2.2 then
          { stats with moreProbableSymbol := stats.moreProbableSymbol.set context (!mps) }
        else stats
      .ok (r.1.1, r.2, stats)

/-- Decode `n` bits, all with the same context index. -/
def Decoder.decodeBits (d : Decoder) (stats : Statistics) (context : Nat) :
    Nat → Except JsError (List Bool × Decoder × Statistics)
  | 0 => .ok ([], d, stats)
  | n + 1 =>
    match d.decodeBit stats context with
    | .error e => .error e
    | .ok r =>
      match r.2.1.decodeBits r.2.2 context n with
      | .error e => .error e
      | .ok rest => .ok (r.1 :: rest.1, rest.2)

/-- Removal of byte stuffing: each `0x00` that immediately follows a `0xFF`
is a stuffing marker and is dropped (the round-trip law feeds the encoder's
output to the decoder with these stuffed zeroes removed). -/
def removeStuffing : List Nat → List Nat
  | 0xFF :: 0 :: rest => 0xFF :: removeStuffing rest
  | b :: rest => b :: removeStuffing rest
  | [] => []

/-! ## Claim C4: the decoder state table versus ITU-T T.81 Table D.3 -/

/-- One row of ITU-T T.81 Table D.3: the Qe probability estimate, the next
state index after an LPS, the next state index after a (renormalizing) MPS,
and the switch-MPS flag. -/
structure D3Row where
  qe : Nat
  nlps : Nat
  nmps : Nat
  switchMPS : Nat
deriving DecidableEq, Repr

def tableD3A : List D3Row := [
  ⟨0x5A1D, 1, 1, 1⟩,
  ⟨0x2586, 14, 2, 0⟩,
  ⟨0x1114, 16, 3, 0⟩,
  ⟨0x080B, 18, 4, 0⟩,
  ⟨0x03D8, 20, 5, 0⟩,
  ⟨0x01DA, 23, 6, 0⟩,
  ⟨0x00E5, 25, 7, 0⟩,
  ⟨0x006F, 28, 8, 0⟩,
  ⟨0x0036, 30, 9, 0⟩,
  ⟨0x001A, 33, 10, 0⟩,
  ⟨0x000D, 35, 11, 0⟩,
  ⟨0x0006, 9, 12, 0⟩,
  ⟨0x0003, 10, 13, 0⟩,
  ⟨0x0001, 12, 13, 0⟩,
  ⟨0x5A7F, 15, 15, 1⟩,
  ⟨0x3F25, 36, 16, 0⟩,
  ⟨0x2CF2, 38, 17, 0⟩,
  ⟨0x207C, 39, 18, 0⟩,
  ⟨0x17B9, 40, 19, 0⟩,
  ⟨0x1182, 42, 20, 0⟩,
  ⟨0x0CEF, 43, 21, 0⟩,
  ⟨0x09A1, 45, 22, 0⟩,
  ⟨0x072F, 46, 23, 0⟩,
  ⟨0x055C, 48, 24, 0⟩,
  ⟨0x0406, 49, 25, 0⟩,
  ⟨0x0303, 51, 26, 0⟩,
  ⟨0x0240, 52, 27, 0⟩,
  ⟨0x01B1, 54, 28, 0⟩,
  ⟨0x0144, 56, 29, 0⟩,
  ⟨0x00F5, 57, 30, 0⟩
  ]

def tableD3B : List D3Row := [
  ⟨0x00B7, 59, 31, 0⟩,
  ⟨0x008A, 60, 32, 0⟩,
  ⟨0x0068, 62, 33, 0⟩,
  ⟨0x004E, 63, 34, 0⟩,
  ⟨0x003B, 32, 35, 0⟩,
  ⟨0x002C, 33, 9, 0⟩,
  ⟨0x5AE1, 37, 37, 1⟩,
  ⟨0x484C, 64, 38, 0⟩,
  ⟨0x3A0D, 65, 39, 0⟩,
  ⟨0x2EF1, 67, 40, 0⟩,
  ⟨0x261F, 68, 41, 0⟩,
  ⟨0x1F33, 69, 42, 0⟩,
  ⟨0x19A8, 70, 43, 0⟩,
  ⟨0x1518, 72, 44, 0⟩,
  ⟨0x1177, 73, 45, 0⟩,
  ⟨0x0E74, 74, 46, 0⟩,
  ⟨0x0BFB, 75, 47, 0⟩,
  ⟨0x09F8, 77, 48, 0⟩,
  ⟨0x0861, 78, 49, 0⟩,
  ⟨0x0706, 79, 50, 0⟩,
  ⟨0x05CD, 48, 51, 0⟩,
  ⟨0x04DE, 50, 52, 0⟩,
  ⟨0x040F, 50, 53, 0⟩,
  ⟨0x0363, 51, 54, 0⟩,
  ⟨0x02D4, 52, 55, 0⟩,
  ⟨0x025C, 53, 56, 0⟩,
  ⟨0x01F8, 54, 57, 0⟩,
  ⟨0x01A4, 55, 58, 0⟩,
  ⟨0x0160, 56, 59, 0⟩,
  ⟨0x0125, 57, 60, 0⟩
  ]

def tableD3C : List D3Row := [
  ⟨0x00F6, 58, 61, 0⟩,
  ⟨0x00CB, 59, 62, 0⟩,
  ⟨0x00AB, 61, 63, 0⟩,
  ⟨0x008F, 61, 32, 0⟩,
  ⟨0x5B12, 65, 65, 1⟩,
  ⟨0x4D04, 80, 66, 0⟩,
  ⟨0x412C, 81, 67, 0⟩,
  ⟨0x37D8, 82, 68, 0⟩,
  ⟨0x2FE8, 83, 69, 0⟩,
  ⟨0x293C, 84, 70, 0⟩,
  ⟨0x2379, 86, 71, 0⟩,
  ⟨0x1EDF, 87, 72, 0⟩,
  ⟨0x1AA9, 87, 73, 0⟩,
  ⟨0x174E, 72, 74, 0⟩,
  ⟨0x1424, 72, 75, 0⟩,
  ⟨0x119C, 74, 76, 0⟩,
  ⟨0x0F6B, 74, 77, 0⟩,
  ⟨0x0D51, 75, 78, 0⟩,
  ⟨0x0BB6, 77, 79, 0⟩,
  ⟨0x0A40, 77, 48, 0⟩,
  ⟨0x5832, 80, 81, 1⟩,
  ⟨0x4D1C, 88, 82, 0⟩,
  ⟨0x438E, 89, 83, 0⟩,
  ⟨0x3BDD, 90, 84, 0⟩,
  ⟨0x34EE, 91, 85, 0⟩,
  ⟨0x2EAE, 92, 86, 0⟩,
  ⟨0x299A, 93, 87, 0⟩,
  ⟨0x2516, 86, 71, 0⟩,
  ⟨0x5570, 88, 89, 1⟩,
  ⟨0x4CA9, 95, 90, 0⟩
  ]

def tableD3D : List D3Row := [
  ⟨0x44D9, 96, 91, 0⟩,
  ⟨0x3E22, 97, 92, 0⟩,
  ⟨0x3824, 99, 93, 0⟩,
  ⟨0x32B4, 99, 94, 0⟩,
  ⟨0x2E17, 93, 86, 0⟩,
  ⟨0x56A8, 95, 96, 1⟩,
  ⟨0x4F46, 101, 97, 0⟩,
  ⟨0x47E5, 102, 98, 0⟩,
  ⟨0x41CF, 103, 99, 0⟩,
  ⟨0x3C3D, 104, 100, 0⟩,
  ⟨0x375E, 99, 93, 0⟩,
  ⟨0x5231, 105, 102, 0⟩,
  ⟨0x4C0F, 106, 103, 0⟩,
  ⟨0x4639, 107, 104, 0⟩,
  ⟨0x415E, 103, 99, 0⟩,
  ⟨0x5627, 105, 106, 1⟩,
  ⟨0x50E7, 108, 107, 0⟩,
  ⟨0x4B85, 109, 103, 0⟩,
  ⟨0x5597, 110, 109, 0⟩,
  ⟨0x504F, 111, 107, 0⟩,
  ⟨0x5A10, 110, 111, 1⟩,
  ⟨0x5522, 112, 109, 0⟩,
  ⟨0x59EB, 112, 111, 1⟩
  ]

/-- Modelled from the spec: the 113-row probability state table of ITU-T T.81,
Table D.3 (page 60), with columns `(Qe, NLPS, NMPS, switchMPS)`, transcribed
row by row from the standard.  The spec requires the decoder table to match it
"exactly". -/
def tableD3 : List D3Row := tableD3A ++ tableD3B ++ tableD3C ++ tableD3D

/-- C4: The probability state table used by the arithmetic decoder has exactly
113 rows, and for every row index `i` in 0..112 its four fields (Qe
probability, next-state-after-LPS, next-state-after-MPS, switch-MPS flag)
equal the corresponding row of ITU-T T.81 Table D.3; in particular row 45 has
`Qe = 0x0E74`. -/
theorem c4_state_table_is_T81_D3 :
    stateTable.length = 113 ∧
    stateTable.map (fun e => D3Row.mk e.probability e.nextLPS e.nextMPS e.swapMPS) = tableD3 ∧
    (stateTable.get? 45).map StateEntry.probability = some 0x0E74 := by
  refine ⟨by rfl, by rfl, by rfl⟩

/-! ## JPEG-specific helpers of the arithmetic decoder (class `Decoder`)

Context index bases (the `static` members of `Decoder`). -/

def Decoder.S0_zero : Nat := 0

def Decoder.S0_small : Nat := 4

def Decoder.S0_large : Nat := 8

def Decoder.S0_neg_small : Nat := 12

def Decoder.S0_neg_large : Nat := 16

def Decoder.X1 : Nat := 20

def Decoder.M2 : Nat := Decoder.X1 + 15

def Decoder.X2_low : Nat := 189

def Decoder.X2_high : Nat := Decoder.X2_low + 28

/-- JavaScript's `ToInt32` coercion. -/
def toInt32 (x : Int) : Int := (x + 2 ^ 31) % 2 ^ 32 - 2 ^ 31

/-- A decoder together with the statistics area it reads and the list of
context indices passed to `decodeBit` so far (the trace is specification
instrumentation; it records each successful statistics access). -/
structure DecodeRun where
  d : Decoder
  stats : Statistics
  trace : List Nat
deriving Repr

/-- `decodeBit`, with the context index recorded in the trace. -/
def DecodeRun.decodeBit (r : DecodeRun) (context : Nat) :
    Except JsError (Bool × DecodeRun) :=
  match r.d.decodeBit r.stats context with
  | .error e => .error e
  | .ok x => .ok (x.1, ⟨x.2.1, x.2.2, r.trace ++ [context]⟩)

/-- The `while (this.decodeBit(stats, context)) { context++; magnitude <<= 1 }`
magnitude-category loop of `decodeSignMagnitude`.  The context index grows
without bound as long as 1-bits are decoded; `magnitude` is doubled with
JavaScript int32 wrap-around. -/
def DecodeRun.magCategoryLoop : Nat → DecodeRun → Nat → Int →
    Except JsError (Nat × Int × DecodeRun)
  | 0, _, _, _ => .error .fuelExhausted
  | fuel + 1, r, context, magnitude =>
    (r.decodeBit context).bind fun br =>
      if br.1 then
        DecodeRun.magCategoryLoop fuel br.2 (context + 1) (toInt32 (magnitude * 2))
      else .ok (context, magnitude, br.2)

/-- The `while (magnitude >>= 1) { if (this.decodeBit(stats, context)) value += magnitude }`
value-bit loop of `decodeSignMagnitude` (`>>` is JavaScript's arithmetic
shift, i.e. floor division by 2; a negative `magnitude`, which arises after
29 or more category bits through int32 wrap-around, never reaches 0 and makes
the source loop forever — modelled by fuel exhaustion). -/
def DecodeRun.valueBitsLoop : Nat → DecodeRun → Nat → Int → Int →
    Except JsError (Int × DecodeRun)
  | 0, _, _, _, _ => .error .fuelExhausted
  | fuel + 1, r, context, magnitude, value =>
    let magnitude := Int.fdiv magnitude 2
    if magnitude = 0 then .ok (value, r)
    else
      (r.decodeBit context).bind fun br =>
        DecodeRun.valueBitsLoop fuel br.2 context magnitude
          (if br.1 then value + magnitude else value)

/-- The part of `Decoder.prototype.decodeSignMagnitude` after the sign has
been determined: the positive/negative context bit, the `magContext1` bit,
the magnitude-category loop, the `context += 14; magnitude >>= 1` step, and
the value-bit loop. -/
def DecodeRun.signMagnitudeTail (r : DecodeRun) (sign : Int)
    (posContext negContext magContext1 magContext2 fuel : Nat) :
    Except JsError (Int × DecodeRun) :=
  (if sign = 1 then r.decodeBit posContext else r.decodeBit negContext).bind fun br =>
    if !br.1 then .ok (sign, br.2)
    else
      (br.2.decodeBit magContext1).bind fun b1r =>
        if !b1r.1 then .ok (2 * sign, b1r.2)
        else
          (DecodeRun.magCategoryLoop fuel b1r.2 magContext2 4).bind fun cmr =>
            (DecodeRun.valueBitsLoop fuel cmr.2.2 (cmr.1 + 14)
                (Int.fdiv cmr.2.1 2) (Int.fdiv cmr.2.1 2)).bind fun vr =>
              .ok ((vr.1 + 1) * sign, vr.2)

/-- `Decoder.prototype.decodeSignMagnitude`.  With `signContext = none` (the
source's `null`) the sign bit is decoded at fixed probability `0x5A1D` via a
bare `decodeDecision` call whose state-transition arguments are undefined and
unused, and without any statistics access. -/
def DecodeRun.decodeSignMagnitude (r : DecodeRun) (signContext : Option Nat)
    (posContext negContext magContext1 magContext2 fuel : Nat) :
    Except JsError (Int × DecodeRun) :=
  match signContext with
  | some sc =>
    (r.decodeBit sc).bind fun br =>
      br.2.signMagnitudeTail (if br.1 then -1 else 1)
        posContext negContext magContext1 magContext2 fuel
  | none =>
    let x := r.d.decodeDecision 0x5A1D false 0 0 0
    DecodeRun.signMagnitudeTail { r with d := x.2 } (if x.1.1 then -1 else 1)
      posContext negContext magContext1 magContext2 fuel

/-- The 5-way choice of the `S0` statistics-area base index in
`decodeDCCoefficientDelta`, driven by the sign and magnitude bucket of the
previous DC delta relative to the conditioning thresholds. -/
def dcContextBase (prevDCDelta lowThreshold highThreshold : Int) : Nat :=
  if prevDCDelta > lowThreshold ∧ prevDCDelta ≤ highThreshold then Decoder.S0_small
  else if prevDCDelta > highThreshold then Decoder.S0_large
  else if -prevDCDelta > lowThreshold ∧ -prevDCDelta ≤ highThreshold then Decoder.S0_neg_small
  else if -prevDCDelta > highThreshold then Decoder.S0_neg_large
  else Decoder.S0_zero

/-- `Decoder.prototype.decodeDCCoefficientDelta`. -/
def DecodeRun.decodeDCCoefficientDelta (r : DecodeRun) (prevDCDelta : Int)
    (lowThreshold highThreshold : Int) (fuel : Nat) :
    Except JsError (Int × DecodeRun) :=
  let S0 := dcContextBase prevDCDelta lowThreshold highThreshold
  (r.decodeBit S0).bind fun br =>
    if !br.1 then .ok (0, br.2)
    else
      br.2.decodeSignMagnitude (some (S0 + 1)) (S0 + 2) (S0 + 3)
        Decoder.X1 (Decoder.X1 + 1) fuel

/-- The inner `while (!this.decodeBit(stats, S0))` zero-run loop of
`decodeACCoefficients`; `SN_SP` and `X1` track `S0 + 1` throughout. -/
def DecodeRun.acZeroRun : Nat → DecodeRun → Nat → Nat → List Int →
    Except JsError (Nat × Nat × List Int × DecodeRun)
  | 0, _, _, _, _ => .error .fuelExhausted
  | fuel + 1, r, s0, zigZagIndex, acc =>
    (r.decodeBit s0).bind fun br =>
      if br.1 then .ok (s0, zigZagIndex, acc, br.2)
      else DecodeRun.acZeroRun fuel br.2 (s0 + 3) (zigZagIndex + 1) (acc ++ [0])

/-- The body of one non-EOB iteration of the `decodeACCoefficients` do/while
loop: the zero-run inner loop, then the shared-context sign-magnitude decode
(bank `X2_low` below the conditioning threshold, `X2_high` at or above it),
the append of the decoded coefficient, and the `zigZagIndex++`.  In the
result `szar` of the zero run, `szar.1` is the final `S0` (so `szar.1 + 1`
is `SN_SP = X1`), `szar.2.1` the zig-zag index, `szar.2.2.1` the coefficient
list so far. -/
def DecodeRun.acStep (fuel : Nat) (r : DecodeRun)
    (threshold zigZagIndex : Nat) (acc : List Int) :
    Except JsError (List Int × Nat × DecodeRun) :=
  (DecodeRun.acZeroRun fuel r (3 * zigZagIndex + 1) zigZagIndex acc).bind fun szar =>
    (if szar.2.1 < threshold then
        szar.2.2.2.decodeSignMagnitude none (szar.1 + 1) (szar.1 + 1) (szar.1 + 1)
          Decoder.X2_low fuel
      else
        szar.2.2.2.decodeSignMagnitude none (szar.1 + 1) (szar.1 + 1) (szar.1 + 1)
          Decoder.X2_high fuel).bind fun vr =>
      .ok (szar.2.2.1 ++ [vr.1], szar.2.1 + 1, vr.2)

/-- The outer do/while loop of `decodeACCoefficients`: the end-of-block bit
at context `SE = 3 * zigZagIndex` (filling the rest of the band with zeroes
when set), one `acStep` otherwise, repeated while the coefficient count is
at most `spectralEnd - spectralStart`. -/
def DecodeRun.acOuterLoop : Nat → DecodeRun → Nat → Nat → Nat → List Int → Nat →
    Except JsError (List Int × DecodeRun)
  | 0, _, _, _, _, _, _ => .error .fuelExhausted
  | fuel + 1, r, threshold, spectralStart, spectralEnd, acCoefficients, zigZagIndex =>
    (r.decodeBit (3 * zigZagIndex)).bind fun br =>
      if br.1 then
        .ok (acCoefficients ++
          List.replicate (spectralEnd - spectralStart + 1 - acCoefficients.length) 0, br.2)
      else
        (DecodeRun.acStep (fuel + 1) br.2 threshold zigZagIndex acCoefficients).bind fun azr =>
          if azr.1.length ≤ spectralEnd - spectralStart then
            DecodeRun.acOuterLoop fuel azr.2.2 threshold spectralStart spectralEnd azr.1 azr.2.1
          else .ok (azr.1, azr.2.2)

/-- `Decoder.prototype.decodeACCoefficients` (callers always pass
`spectralStart ≥ 1`). -/
def DecodeRun.decodeACCoefficients (r : DecodeRun)
    (threshold spectralStart spectralEnd fuel : Nat) :
    Except JsError (List Int × DecodeRun) :=
  DecodeRun.acOuterLoop fuel r threshold spectralStart spectralEnd [] (spectralStart - 1)

/-- A fresh decode run: a primed decoder over `input`, an `n`-context
statistics area as allocated by `handleConditioningSegment` (49 for DC, 245
for AC), and an empty trace. -/
def mkDecodeRun (n : Nat) (input : List Nat) : DecodeRun :=
  ⟨Decoder.init input, Statistics.init n, []⟩

/-- Inversion of JavaScript-style error propagation: if a bind produced a
success, the first step succeeded and the continuation succeeded on its
result. -/
theorem ebind_ok {α β : Type} {x : Except JsError α} {f : α → Except JsError β} {out : β}
    (h : x.bind f = .ok out) : ∃ a, x = .ok a ∧ f a = .ok out := by
  cases x with
  | error e => simp [Except.bind] at h
  | ok a => exact ⟨a, rfl, by simpa [Except.bind] using h⟩

/-- Eta-expansion of a successful pair-valued result. -/
theorem ok_pair_eta {A B : Type} {e : Except JsError (A × B)} {x : A × B}
    (h : e = .ok x) : e = .ok (x.1, x.2) := by rw [h]

/-- Eta-expansion of a successful triple-valued result. -/
theorem ok_triple_eta {A B C : Type} {e : Except JsError (A × B × C)} {x : A × B × C}
    (h : e = .ok x) : e = .ok (x.1, x.2.1, x.2.2) := by rw [h]

theorem Decoder.decodeBit_ok {d : Decoder} {stats : Statistics} {ctx : Nat}
    {b : Bool} {d' : Decoder} {stats' : Statistics}
    (h : d.decodeBit stats ctx = .ok (b, d', stats')) :
    ctx < stats.states.length ∧ stats'.states.length = stats.states.length := by
  unfold Decoder.decodeBit at h
  cases h1 : stats.states.get? ctx <;> rw [h1] at h <;> dsimp only at h
  · cases h
  · rename_i si
    cases h2 : stateTable.get? si <;> rw [h2] at h <;> dsimp only at h
    · cases h
    · have hlt : ctx < stats.states.length := by
        by_contra hge
        rw [List.get?_eq_none.mpr (le_of_not_lt hge)] at h1
        cases h1
      refine ⟨hlt, ?_⟩
      simp only [Except.ok.injEq, Prod.mk.injEq] at h
      obtain ⟨-, -, hs⟩ := h
      subst hs
      split <;> split <;> simp [List.length_set]

theorem DecodeRun.decodeBit_trace_ok {r : DecodeRun} {ctx : Nat} {b : Bool} {r' : DecodeRun}
    (h : r.decodeBit ctx = .ok (b, r')) :
    r'.trace = r.trace ++ [ctx] ∧ ctx < r.stats.states.length ∧
    r'.stats.states.length = r.stats.states.length := by
  unfold DecodeRun.decodeBit at h
  cases h0 : r.d.decodeBit r.stats ctx <;> rw [h0] at h <;> dsimp only at h
  · cases h
  · rename_i x
    obtain ⟨h1, h2⟩ := Decoder.decodeBit_ok (ok_triple_eta h0)
    simp only [Except.ok.injEq, Prod.mk.injEq] at h
    obtain ⟨-, hr⟩ := h
    subst hr
    exact ⟨rfl, h1, h2⟩

theorem DecodeRun.trace_step {n : Nat} {r r1 : DecodeRun} {ctx : Nat} {b : Bool}
    (h : r.decodeBit ctx = .ok (b, r1))
    (hlen : r.stats.states.length = n) (htr : ∀ c ∈ r.trace, c < n) :
    r1.stats.states.length = n ∧ ∀ c ∈ r1.trace, c < n := by
  obtain ⟨ht, hc, hl⟩ := DecodeRun.decodeBit_trace_ok h
  refine ⟨hl.trans hlen, ?_⟩
  rw [ht]
  intro c hcmem
  rcases List.mem_append.mp hcmem with h' | h'
  · exact htr c h'
  · rw [List.mem_singleton.mp h']; exact hlen ▸ hc

theorem DecodeRun.magCategoryLoop_ok {n : Nat} : ∀ {fuel : Nat} {r : DecodeRun}
    {ctx : Nat} {mag : Int} {out : Nat × Int × DecodeRun},
    DecodeRun.magCategoryLoop fuel r ctx mag = .ok out →
    r.stats.states.length = n → (∀ c ∈ r.trace, c < n) →
    out.2.2.stats.states.length = n ∧ ∀ c ∈ out.2.2.trace, c < n := by
  intro fuel
  induction fuel with
  | zero => intro r ctx mag out h _ _; cases h
  | succ fuel ih =>
    intro r ctx mag out h hlen htr
    unfold DecodeRun.magCategoryLoop at h
    obtain ⟨br, h0, h⟩ := ebind_ok h
    obtain ⟨hl1, ht1⟩ := DecodeRun.trace_step (ok_pair_eta h0) hlen htr
    by_cases hb : br.1
    · rw [if_pos hb] at h
      exact ih h hl1 ht1
    · rw [if_neg hb] at h
      simp only [Except.ok.injEq] at h
      subst h
      exact ⟨hl1, ht1⟩

theorem DecodeRun.valueBitsLoop_ok {n : Nat} : ∀ {fuel : Nat} {r : DecodeRun}
    {ctx : Nat} {mag value : Int} {out : Int × DecodeRun},
    DecodeRun.valueBitsLoop fuel r ctx mag value = .ok out →
    r.stats.states.length = n → (∀ c ∈ r.trace, c < n) →
    out.2.stats.states.length = n ∧ ∀ c ∈ out.2.trace, c < n := by
  intro fuel
  induction fuel with
  | zero => intro r ctx mag value out h _ _; cases h
  | succ fuel ih =>
    intro r ctx mag value out h hlen htr
    unfold DecodeRun.valueBitsLoop at h
    dsimp only at h
    by_cases hm : Int.fdiv mag 2 = 0
    · rw [if_pos hm] at h
      simp only [Except.ok.injEq] at h
      subst h
      exact ⟨hlen, htr⟩
    · rw [if_neg hm] at h
      obtain ⟨br, h0, h⟩ := ebind_ok h
      obtain ⟨hl1, ht1⟩ := DecodeRun.trace_step (ok_pair_eta h0) hlen htr
      exact ih h hl1 ht1

theorem DecodeRun.signMagnitudeTail_ok {n : Nat} {r : DecodeRun} {sign : Int}
    {pc nc m1 m2 fuel : Nat} {out : Int × DecodeRun}
    (h : r.signMagnitudeTail sign pc nc m1 m2 fuel = .ok out)
    (hlen : r.stats.states.length = n) (htr : ∀ c ∈ r.trace, c < n) :
    out.2.stats.states.length = n ∧ ∀ c ∈ out.2.trace, c < n := by
  unfold DecodeRun.signMagnitudeTail at h
  obtain ⟨br, h0, h⟩ := ebind_ok h
  have hx : ∃ cc, r.decodeBit cc = .ok (br.1, br.2) := by
    by_cases hs : sign = 1
    · exact ⟨pc, by rw [if_pos hs] at h0; rw [h0]⟩
    · exact ⟨nc, by rw [if_neg hs] at h0; rw [h0]⟩
  obtain ⟨cc, hcc⟩ := hx
  obtain ⟨hl1, ht1⟩ := DecodeRun.trace_step hcc hlen htr
  by_cases hb : br.1
  · rw [if_neg (by simp [hb])] at h
    obtain ⟨b1r, h1, h⟩ := ebind_ok h
    obtain ⟨hl2, ht2⟩ := DecodeRun.trace_step (ok_pair_eta h1) hl1 ht1
    by_cases hb1 : b1r.1
    · rw [if_neg (by simp [hb1])] at h
      obtain ⟨cmr, h2, h⟩ := ebind_ok h
      obtain ⟨hl3, ht3⟩ := DecodeRun.magCategoryLoop_ok h2 hl2 ht2
      obtain ⟨vr, h3, h⟩ := ebind_ok h
      obtain ⟨hl4, ht4⟩ := DecodeRun.valueBitsLoop_ok h3 hl3 ht3
      simp only [Except.ok.injEq] at h
      subst h
      exact ⟨hl4, ht4⟩
    · rw [if_pos (by simp [hb1])] at h
      simp only [Except.ok.injEq] at h
      subst h
      exact ⟨hl2, ht2⟩
  · rw [if_pos (by simp [hb])] at h
    simp only [Except.ok.injEq] at h
    subst h
    exact ⟨hl1, ht1⟩

theorem DecodeRun.decodeSignMagnitude_ok {n : Nat} {r : DecodeRun}
    {sc : Option Nat} {pc nc m1 m2 fuel : Nat} {out : Int × DecodeRun}
    (h : r.decodeSignMagnitude sc pc nc m1 m2 fuel = .ok out)
    (hlen : r.stats.states.length = n) (htr : ∀ c ∈ r.trace, c < n) :
    out.2.stats.states.length = n ∧ ∀ c ∈ out.2.trace, c < n := by
  unfold DecodeRun.decodeSignMagnitude at h
  cases sc with
  | some scv =>
    dsimp only at h
    obtain ⟨br, h0, h⟩ := ebind_ok h
    obtain ⟨hl1, ht1⟩ := DecodeRun.trace_step (ok_pair_eta h0) hlen htr
    exact DecodeRun.signMagnitudeTail_ok h hl1 ht1
  | none =>
    dsimp only at h
    exact DecodeRun.signMagnitudeTail_ok h hlen htr

theorem DecodeRun.decodeDCCoefficientDelta_ok {n : Nat} {r : DecodeRun}
    {prevDelta lo hi : Int} {fuel : Nat} {out : Int × DecodeRun}
    (h : r.decodeDCCoefficientDelta prevDelta lo hi fuel = .ok out)
    (hlen : r.stats.states.length = n) (htr : ∀ c ∈ r.trace, c < n) :
    out.2.stats.states.length = n ∧ ∀ c ∈ out.2.trace, c < n := by
  unfold DecodeRun.decodeDCCoefficientDelta at h
  dsimp only at h
  obtain ⟨br, h0, h⟩ := ebind_ok h
  obtain ⟨hl1, ht1⟩ := DecodeRun.trace_step (ok_pair_eta h0) hlen htr
  by_cases hb : br.1
  · rw [if_neg (by simp [hb])] at h
    exact DecodeRun.decodeSignMagnitude_ok h hl1 ht1
  · rw [if_pos (by simp [hb])] at h
    simp only [Except.ok.injEq] at h
    subst h
    exact ⟨hl1, ht1⟩

theorem DecodeRun.acZeroRun_ok {n : Nat} : ∀ {fuel : Nat} {r : DecodeRun}
    {s0 zz : Nat} {acc : List Int} {out : Nat × Nat × List Int × DecodeRun},
    DecodeRun.acZeroRun fuel r s0 zz acc = .ok out →
    r.stats.states.length = n → (∀ c ∈ r.trace, c < n) →
    out.2.2.2.stats.states.length = n ∧ ∀ c ∈ out.2.2.2.trace, c < n := by
  intro fuel
  induction fuel with
  | zero => intro r s0 zz acc out h _ _; cases h
  | succ fuel ih =>
    intro r s0 zz acc out h hlen htr
    unfold DecodeRun.acZeroRun at h
    obtain ⟨br, h0, h⟩ := ebind_ok h
    obtain ⟨hl1, ht1⟩ := DecodeRun.trace_step (ok_pair_eta h0) hlen htr
    by_cases hb : br.1
    · rw [if_pos hb] at h
      simp only [Except.ok.injEq] at h
      subst h
      exact ⟨hl1, ht1⟩
    · rw [if_neg hb] at h
      exact ih h hl1 ht1

theorem DecodeRun.acStep_ok {n : Nat} {fuel : Nat} {r : DecodeRun}
    {thr zz : Nat} {acc : List Int} {out : List Int × Nat × DecodeRun}
    (h : DecodeRun.acStep fuel r thr zz acc = .ok out)
    (hlen : r.stats.states.length = n) (htr : ∀ c ∈ r.trace, c < n) :
    out.2.2.stats.states.length = n ∧ ∀ c ∈ out.2.2.trace, c < n := by
  unfold DecodeRun.acStep at h
  obtain ⟨szar, h1, h⟩ := ebind_ok h
  obtain ⟨hl2, ht2⟩ := DecodeRun.acZeroRun_ok h1 hlen htr
  obtain ⟨vr, h2, h⟩ := ebind_ok h
  have hsm : szar.2.2.2.stats.states.length = n ∧ ∀ c ∈ szar.2.2.2.trace, c < n := ⟨hl2, ht2⟩
  have : vr.2.stats.states.length = n ∧ ∀ c ∈ vr.2.trace, c < n := by
    by_cases hz : szar.2.1 < thr
    · rw [if_pos hz] at h2
      exact DecodeRun.decodeSignMagnitude_ok h2 hsm.1 hsm.2
    · rw [if_neg hz] at h2
      exact DecodeRun.decodeSignMagnitude_ok h2 hsm.1 hsm.2
  simp only [Except.ok.injEq] at h
  subst h
  exact this

theorem DecodeRun.acOuterLoop_ok {n : Nat} : ∀ {fuel : Nat} {r : DecodeRun}
    {thr ss se : Nat} {acc : List Int} {zz : Nat} {out : List Int × DecodeRun},
    DecodeRun.acOuterLoop fuel r thr ss se acc zz = .ok out →
    r.stats.states.length = n → (∀ c ∈ r.trace, c < n) →
    out.2.stats.states.length = n ∧ ∀ c ∈ out.2.trace, c < n := by
  intro fuel
  induction fuel with
  | zero => intro r thr ss se acc zz out h _ _; cases h
  | succ fuel ih =>
    intro r thr ss se acc zz out h hlen htr
    unfold DecodeRun.acOuterLoop at h
    obtain ⟨br, h0, h⟩ := ebind_ok h
    obtain ⟨hl1, ht1⟩ := DecodeRun.trace_step (ok_pair_eta h0) hlen htr
    by_cases hb : br.1
    · rw [if_pos hb] at h
      simp only [Except.ok.injEq] at h
      subst h
      exact ⟨hl1, ht1⟩
    · rw [if_neg hb] at h
      obtain ⟨azr, h1, h⟩ := ebind_ok h
      obtain ⟨hl2, ht2⟩ := DecodeRun.acStep_ok h1 hl1 ht1
      by_cases hlast : azr.1.length ≤ se - ss
      · rw [if_pos hlast] at h
        exact ih h hl2 ht2
      · rw [if_neg hlast] at h
        simp only [Except.ok.injEq] at h
        subst h
        exact ⟨hl2, ht2⟩

theorem DecodeRun.decodeACCoefficients_ok {n : Nat} {r : DecodeRun}
    {thr ss se fuel : Nat} {out : List Int × DecodeRun}
    (h : r.decodeACCoefficients thr ss se fuel = .ok out)
    (hlen : r.stats.states.length = n) (htr : ∀ c ∈ r.trace, c < n) :
    out.2.stats.states.length = n ∧ ∀ c ∈ out.2.trace, c < n := by
  unfold DecodeRun.decodeACCoefficients at h
  exact DecodeRun.acOuterLoop_ok h hlen htr

/-- C10 (counterexample): on the adversarial input of eight `0xFF` bytes,
`decodeDCCoefficientDelta` with the 49-context DC statistics allocation of
`handleConditioningSegment` (and the default conditioning thresholds 0 / 2)
drives the magnitude-category context index past index 48 and crashes with a
`TypeError` from the out-of-range `stats.states[49]` lookup — refuting the
claim that every context index passed to `decodeBit` stays within the bounds
of the Statistics arrays on every input. -/
theorem c10_dc_context_overrun_counterexample :
    (mkDecodeRun 49 (List.replicate 8 0xFF)).decodeDCCoefficientDelta 0 0 2 300
      = .error .typeError := by rfl

/-- C10 (amended): whenever DC-coefficient-delta decoding (over the 49-slot
DC statistics allocation) or AC-coefficient decoding (over the 245-slot AC
allocation) returns successfully, every context index at which `decodeBit`
actually read the statistics arrays lies in `[0, 48]` respectively
`[0, 244]`; adversarial inputs can instead drive the context index out of
these bounds, upon which the lookup fails rather than returning a value. -/
theorem c10_context_bounds_on_success :
    (∀ (input : List Nat) (prevDelta lo hi : Int) (fuel : Nat) (v : Int) (r' : DecodeRun),
        (mkDecodeRun 49 input).decodeDCCoefficientDelta prevDelta lo hi fuel = .ok (v, r') →
        ∀ c ∈ r'.trace, c ≤ 48) ∧
    (∀ (input : List Nat) (thr ss se fuel : Nat) (v : List Int) (r' : DecodeRun),
        (mkDecodeRun 245 input).decodeACCoefficients thr ss se fuel = .ok (v, r') →
        ∀ c ∈ r'.trace, c ≤ 244) := by
  constructor
  · intro input prevDelta lo hi fuel v r' h c hc
    have hinv := DecodeRun.decodeDCCoefficientDelta_ok (n := 49) h
      (by simp [mkDecodeRun, Statistics.init]) (by simp [mkDecodeRun])
    exact Nat.lt_succ_iff.mp (hinv.2 c hc)
  · intro input thr ss se fuel v r' h c hc
    have hinv := DecodeRun.decodeACCoefficients_ok (n := 245) h
      (by simp [mkDecodeRun, Statistics.init]) (by simp [mkDecodeRun])
    exact Nat.lt_succ_iff.mp (hinv.2 c hc)

/-- A benign DC decode on all-zero input (the first context bit decodes to 0,
so the delta is 0 and only context 0 is read), used to witness the amended
C10 at a concrete input. -/
def c10DcExample : Int × DecodeRun :=
  match (mkDecodeRun 49 [0, 0]).decodeDCCoefficientDelta 0 0 2 300 with
  | .ok x => x
  | .error _ => (0, mkDecodeRun 49 [])

/-- Witness for the amended C10 at the concrete input `[0x00, 0x00]`. -/
theorem c10_context_bounds_witness : ∀ c ∈ c10DcExample.2.trace, c ≤ 48 :=
  c10_context_bounds_on_success.1 [0, 0] 0 0 2 300 c10DcExample.1 c10DcExample.2 (by rfl)

/-! ## Claim C6: zig-zag inversion and dequantization (jpeg.js) -/

/-- `JPEG.zigzagSequence` (jpeg.js): natural index of each zig-zag position. -/
def zigzagSequence : List Nat := [
  0,
  1, 8,
  16, 9, 2,
  3, 10, 17, 24,
  32, 25, 18, 11, 4,
  5, 12, 19, 26, 33, 40,
  48, 41, 34, 27, 20, 13, 6,
  7, 14, 21, 28, 35, 42, 49, 56,
  57, 50, 43, 36, 29, 22, 15,
  23, 30, 37, 44, 51, 58,
  59, 52, 45, 38, 31,
  39, 46, 53, 60,
  61, 54, 47,
  55, 62,
  63]

def dequantizeCoefficients (coefficients quantTable : List Int) : List Int :=
  List.zipWith (· * ·) coefficients quantTable

def applyWrites (init : List Int) (ws : List (Nat × Int)) : List Int :=
  ws.foldl (fun l p => l.set p.1 p.2) init

def inverseZigzagOrder (coefficients : List Int) : Except JsError (List Int) :=
  if coefficients.length ≠ 64 then .error .thrown
  else
    .ok (applyWrites (List.replicate 64 0)
      ((List.range 64).map (fun i => (zigzagSequence.getD i 0, coefficients.getD i 0))))


theorem applyWrites_length (ws : List (Nat × Int)) : ∀ init,
    (applyWrites init ws).length = init.length := by
  induction ws with
  | nil => intro init; rfl
  | cons p rest ih =>
    intro init
    show (applyWrites (init.set p.1 p.2) rest).length = _
    rw [ih, List.length_set]

theorem applyWrites_get?_not_mem {i : Nat} : ∀ (ws : List (Nat × Int)) (init : List Int),
    i ∉ ws.map Prod.fst → (applyWrites init ws).get? i = init.get? i := by
  intro ws
  induction ws with
  | nil => intro init _; rfl
  | cons p rest ih =>
    intro init hni
    simp only [List.map_cons, List.mem_cons] at hni
    push_neg at hni
    show (applyWrites (init.set p.1 p.2) rest).get? i = _
    rw [ih _ hni.2, List.get?_set_ne _ _ (fun he => hni.1 he.symm)]

theorem applyWrites_get? {i : Nat} {v : Int} : ∀ (ws : List (Nat × Int)) (init : List Int),
    (ws.map Prod.fst).Nodup → (i, v) ∈ ws → i < init.length →
    (applyWrites init ws).get? i = some v := by
  intro ws
  induction ws with
  | nil => intro init _ hmem _; cases hmem
  | cons p rest ih =>
    intro init hnd hmem hlt
    simp only [List.map_cons, List.nodup_cons] at hnd
    rcases List.mem_cons.mp hmem with he | hm
    · subst he
      show (applyWrites (init.set i v) rest).get? i = some v
      rw [applyWrites_get?_not_mem rest _ hnd.1]
      exact List.get?_set_eq_of_lt v hlt
    · show (applyWrites (init.set p.1 p.2) rest).get? i = some v
      exact ih _ hnd.2 hm (by rw [List.length_set]; exact hlt)



theorem dequant_get? : ∀ (c q : List Int) (k : Nat), k < c.length → k < q.length →
    (dequantizeCoefficients c q).get? k = some (c.getD k 0 * q.getD k 0) := by
  intro c
  induction c with
  | nil => intro q k hc _; cases hc
  | cons a cs ih =>
    intro q k hc hq
    cases q with
    | nil => cases hq
    | cons b qs =>
      cases k with
      | zero => simp [dequantizeCoefficients]
      | succ k =>
        simp only [dequantizeCoefficients, List.zipWith_cons_cons, List.get?_cons_succ,
          List.getD_cons_succ]
        exact ih qs k (Nat.lt_of_succ_lt_succ hc) (Nat.lt_of_succ_lt_succ hq)

theorem zigzag_getD_lt : ∀ k < 64, zigzagSequence.getD k 0 < 64 := by decide

theorem zigzag_idx_nodup : ((List.range 64).map (fun i => zigzagSequence.getD i 0)).Nodup := by
  decide

theorem zigzag_writes_nodup (f : Nat → Int) :
    (((List.range 64).map (fun i => (zigzagSequence.getD i 0, f i))).map Prod.fst).Nodup := by
  simp only [List.map_map]
  exact zigzag_idx_nodup

theorem c6_main : ∀ (c q : List Int) (k : Nat), c.length = 64 → q.length = 64 → k < 64 →
    ∃ res, inverseZigzagOrder (dequantizeCoefficients c q) = .ok res ∧
      res.get? (zigzagSequence.getD k 0) = some (c.getD k 0 * q.getD k 0) := by
  intro c q k hc hq hk
  have hlen : (dequantizeCoefficients c q).length = 64 := by
    simp [dequantizeCoefficients, hc, hq]
  have hget := dequant_get? c q k (by omega) (by omega)
  have hco : (dequantizeCoefficients c q).getD k 0 = c.getD k 0 * q.getD k 0 := by
    rw [List.get?_eq_getElem?] at hget
    show ((dequantizeCoefficients c q).get? k).getD 0 = _
    rw [List.get?_eq_getElem?, hget]
    rfl
  refine ⟨_, by rw [inverseZigzagOrder, if_neg (by rw [hlen]; exact fun h => h rfl)], ?_⟩
  exact applyWrites_get? _ _ (zigzag_writes_nodup _)
    (List.mem_map.mpr ⟨k, List.mem_range.mpr hk, by rw [hco]⟩)
    (by simp only [List.length_replicate]; exact zigzag_getD_lt k hk)


/-- Claim C6: for every 64-element coefficient sequence `c` (zig-zag order)
and every 64-element quantization table `q` (zig-zag order), dequantizing and
then inverse-zig-zag permuting yields a block whose entry at natural-order
index `zigzagSequence[k]` equals `c[k] * q[k]` for every `k < 64`; and
`zigzagSequence` is the standard permutation of 0..63 starting
`0, 1, 8, 16, 9, 2`. -/
theorem c6_dequantize_then_inverse_zigzag :
    zigzagSequence.take 6 = [0, 1, 8, 16, 9, 2] ∧
    zigzagSequence.Perm (List.range 64) ∧
    ∀ (c q : List Int) (k : Nat), c.length = 64 → q.length = 64 → k < 64 →
      ∃ res, inverseZigzagOrder (dequantizeCoefficients c q) = .ok res ∧
        res.get? (zigzagSequence.getD k 0) = some (c.getD k 0 * q.getD k 0) :=
  ⟨by decide, by decide, c6_main⟩

/-- Witness for C6 at a concrete block: all coefficients 3, all quantizers 2. -/
theorem c6_dequantize_then_inverse_zigzag_witness :
    ∃ res, inverseZigzagOrder
        (dequantizeCoefficients (List.replicate 64 3) (List.replicate 64 2)) = .ok res ∧
      res.get? (zigzagSequence.getD 5 0)
        = some ((List.replicate 64 (3 : Int)).getD 5 0 * (List.replicate 64 (2 : Int)).getD 5 0) :=
  c6_dequantize_then_inverse_zigzag.2.2 (List.replicate 64 3) (List.replicate 64 2) 5
    (by simp) (by simp) (by decide)

/-! ## Claim C1: the arithmetic encode/decode round-trip law -/

/-- Encode a list of bits, all with the same context index, then `flush`:
the encoder side of the round-trip law. -/
def encodeThenFlush (bits : List Bool) (nContexts context : Nat) : Except JsError (List Nat) :=
  (Coder.init.encodeBits (Statistics.init nContexts) context bits).bind fun cs =>
    .ok cs.1.flush

/-- A 16-bit input on which the round-trip law fails.  While encoding it the
encoder emits the byte `0xFE`; during `flush` a carry ripples into that byte
and turns it into `0xFF`, but no stuffing zero is inserted after this
carry-created `0xFF`; the byte then emitted happens to be a *data* `0x00`, so
the final output `[0xFF, 0x00, 0x80]` reads as a stuffed `0xFF` followed by
`0x80` even though its actual data bytes are `0xFF, 0x00, 0x80`.  This
contradicts the invariant documented in `emitOutputByte` itself ("every 0xFF
byte is followed by an extra zero, which is not data but rather just a
marker"). -/
def c1FailingBits : List Bool :=
  [true, false, true, false, false, false, false, true,
   false, false, false, false, false, true, false, false]

/-- The bytes the encoder produces for `c1FailingBits` (single context). -/
def c1EncodedBytes : List Nat :=
  match encodeThenFlush c1FailingBits 1 0 with
  | .ok out => out
  | .error _ => []

/-- The result of feeding `c1EncodedBytes`, with the stuffed `0x00` after
each `0xFF` removed, into a fresh decoder with reset statistics. -/
def c1DecodedBits : List Bool :=
  match (Decoder.init (removeStuffing c1EncodedBytes)).decodeBits (Statistics.init 1) 0
      c1FailingBits.length with
  | .ok r => r.1
  | .error _ => []

/-- Claim C1: the round-trip law (decode ∘ encode = identity on bit
sequences, per context) FAILS on the code.  Encoding the 16-bit sequence
`c1FailingBits` with a single context yields the bytes `FF 00 80`, in which
the `00` is data (a missing stuffing marker after a carry-created `FF`);
removing the stuffed zero after the `FF`, as the decoder side of the law
requires, therefore corrupts the stream, and decoding returns a different
bit sequence.  The claim (and spec §8 round-trip law) states the intended
behaviour; the encoder's carry handling is the slip. -/
theorem c1_round_trip_code_bug :
    c1EncodedBytes = [0xFF, 0x00, 0x80] ∧
    c1DecodedBits ≠ c1FailingBits ∧
    c1DecodedBits = [true, false, true, false, false, true, true, true,
                     true, true, true, true, true, true, true, true] :=
  ⟨by rfl, by decide, by rfl⟩

/-! ## Claim C9: grayscale pixel painting (jpeg.js) -/

/-- JavaScript's `Math.round` on the exact rationals the paint stage
manipulates: round half toward positive infinity. -/
def jsRound (x : ℚ) : ℤ := Int.floor (x + 1/2)

/-- `JPEG.prototype.clampRGB`: `Math.round(Math.min(Math.max(value, 0), 255))`.
This is what the colour path stores for each of R, G and B. -/
def clampRGB (value : ℚ) : ℤ := jsRound (min (max value 0) 255)

/-- JavaScript's `ToIntegerOrInfinity`: truncation toward zero. -/
def jsTrunc (x : ℚ) : ℤ := if 0 ≤ x then Int.floor x else Int.ceil x

/-- Storing a JavaScript number into a `Buffer` (a `Uint8Array`) element:
`ToUint8` truncates toward zero and then wraps modulo 256 — it does *not*
clamp. -/
def uint8Store (x : ℚ) : ℕ := ((jsTrunc x) % 256).toNat

/-- The three raster bytes written by one iteration of
`paintGrayscalePixels`: the source executes
`raster[i] = raster[i+1] = raster[i+2] = samples[0][y*8 + x] + 128`,
so all three positions receive the byte coercion of `sample + 128`,
without any `clampRGB` call. -/
def paintGrayscalePixelBytes (sample : ℚ) : ℕ × ℕ × ℕ :=
  let v := uint8Store (sample + 128)
  (v, v, v)

/-- Claim C9: evaluation of the grayscale paint path at the failing inputs.
The three bytes are indeed all equal, but `paintGrayscalePixels` stores
`sample + 128` with `Uint8Array` coercion (truncate toward zero, wrap mod
256) instead of `clampRGB`'s round-and-clamp: for an inverse-DCT output
sample of `-200` the code writes byte 184 where the claim requires
`clampRGB(-72) = 0`, and for a sample of `1/2` it writes 128 where the claim
requires `clampRGB(128.5) = 129`.  The colour path does call `clampRGB`, so
the claim (and spec §4.8, "Grayscale: `R = G = B = round(Y + 128)` clamped")
states the evident intent; the grayscale path is the slip. -/
theorem c9_grayscale_shift_without_clamp :
    paintGrayscalePixelBytes (-200) = (184, 184, 184) ∧
    clampRGB ((-200 : ℚ) + 128) = 0 ∧
    paintGrayscalePixelBytes (1/2) = (128, 128, 128) ∧
    clampRGB ((1/2 : ℚ) + 128) = 129 := by
  refine ⟨?_, ?_, ?_, ?_⟩
  · have h1 : ((-200 : ℚ) + 128) = ((-72 : ℤ) : ℚ) := by norm_num
    have h2 : jsTrunc ((-72 : ℤ) : ℚ) = -72 := by
      rw [jsTrunc, if_neg (by norm_num), Int.ceil_intCast]
    rw [paintGrayscalePixelBytes]
    show (uint8Store ((-200 : ℚ) + 128), _, _) = _
    rw [h1, uint8Store, h2]
    decide
  · have h1 : (min (max ((-200 : ℚ) + 128) 0) 255) = 0 := by norm_num
    rw [clampRGB, jsRound, h1]
    rw [show (0 : ℚ) + 1/2 = 1/2 by norm_num]
    rw [Int.floor_eq_iff]
    norm_num
  · have h2 : jsTrunc ((1 : ℚ)/2 + 128) = 128 := by
      rw [jsTrunc, if_pos (by norm_num)]
      rw [show (1 : ℚ)/2 + 128 = 128 + 1/2 by ring]
      rw [Int.floor_eq_iff]
      constructor <;> norm_num
    rw [paintGrayscalePixelBytes]
    show (uint8Store ((1 : ℚ)/2 + 128), _, _) = _
    rw [uint8Store, h2]
    decide
  · have h1 : (min (max ((1/2 : ℚ) + 128) 0) 255) = 1/2 + 128 := by
      rw [max_eq_left (by norm_num), min_eq_left (by norm_num)]
    rw [clampRGB, jsRound, h1]
    rw [show (1/2 : ℚ) + 128 + 1/2 = 129 by ring]
    rw [show ((129 : ℚ)) = ((129 : ℤ) : ℚ) by norm_num]
    exact Int.floor_intCast 129

/-! ## Claim C7: the bit reader `readBits` (jpeg.js)

`JPEG.prototype.readBits` reads `nBits` big-endian bits starting at byte
`index`, bit `bitIndex`.  The source performs no bounds check at all:
reading `buffer[index]` past the end yields `undefined` in JavaScript, and
every bitwise operator coerces `undefined` to 0, so out-of-range bytes are
read as `0x00`; the model uses `List.getD _ _ 0` accordingly.  The only
`throw` in the function is for `nBits > 32`.  `readBitsWhole` is the
`while (nBits >= 8)` loop (at most four iterations for `nBits ≤ 32`, so
fuel 5 never runs out) and `readBitsTrailing` the final partial-byte step;
the `% pow32` occurrences mirror JavaScript's int32 coercion of `<<`
(the returned value is the uint32 view of the JavaScript int32 result).
-/

def readBitsWhole : Nat → List Nat → Nat → Nat → Nat → Nat × Nat × Nat
  | 0, _, index, result, nBits => (index, result, nBits)
  | fuel + 1, buffer, index, result, nBits =>
    if 8 ≤ nBits then
      readBitsWhole fuel buffer (index + 1)
        (((result <<< 8) % pow32) ||| buffer.getD index 0) (nBits - 8)
    else (index, result, nBits)

def readBitsTrailing (buffer : List Nat) (w : Nat × Nat × Nat) : Nat × Nat × Nat :=
  if w.2.2 ≠ 0 then
    (w.1, w.2.2, ((w.2.1 <<< w.2.2) % pow32) ||| (buffer.getD w.1 0 >>> (8 - w.2.2)))
  else (w.1, 0, w.2.1)

def readBits (buffer : List Nat) (index bitIndex nBits : Nat) :
    Except JsError (Nat × Nat × Nat) :=
  if nBits > 32 then .error .thrown
  else if bitIndex ≠ 0 then
    if 8 - bitIndex ≥ nBits then
      let result := (buffer.getD index 0 >>> (8 - bitIndex - nBits)) &&& ((1 <<< nBits) - 1)
      if bitIndex + nBits = 8 then .ok (index + 1, 0, result)
      else .ok (index, bitIndex + nBits, result)
    else
      let result := buffer.getD index 0 &&& ((1 <<< (8 - bitIndex)) - 1)
      .ok (readBitsTrailing buffer
        (readBitsWhole 5 buffer (index + 1) result (nBits - (8 - bitIndex))))
  else
    .ok (readBitsTrailing buffer (readBitsWhole 5 buffer index 0 nBits))

-- zero-padding invariance
theorem getD_append_zeros (B : List Nat) (k j : Nat) :
    (B ++ List.replicate k 0).getD j 0 = B.getD j 0 := by
  by_cases h : j < B.length
  · rw [List.getD_eq_getElem _ _ (by simp; omega), List.getD_eq_getElem _ _ h]
    exact List.getElem_append_left h
  · rw [List.getD_eq_default _ _ (le_of_not_lt h)]
    by_cases h2 : j < B.length + k
    · rw [List.getD_eq_getElem _ _ (by simp; omega)]
      rw [List.getElem_append_right (le_of_not_lt h)]
      simp
    · rw [List.getD_eq_default]
      simp
      omega

theorem readBitsWhole_pad (k : Nat) : ∀ (fuel : Nat) (B : List Nat) (index result nBits : Nat),
    readBitsWhole fuel (B ++ List.replicate k 0) index result nBits
      = readBitsWhole fuel B index result nBits := by
  intro fuel
  induction fuel with
  | zero => intro B index result nBits; rfl
  | succ fuel ih =>
    intro B index result nBits
    unfold readBitsWhole
    rw [getD_append_zeros]
    by_cases h : 8 ≤ nBits
    · rw [if_pos h, if_pos h, ih]
    · rw [if_neg h, if_neg h]

theorem readBitsTrailing_pad (k : Nat) (B : List Nat) (w : Nat × Nat × Nat) :
    readBitsTrailing (B ++ List.replicate k 0) w = readBitsTrailing B w := by
  unfold readBitsTrailing
  rw [getD_append_zeros]

theorem readBits_pad (B : List Nat) (index bitIndex nBits k : Nat) :
    readBits (B ++ List.replicate k 0) index bitIndex nBits
      = readBits B index bitIndex nBits := by
  unfold readBits
  simp only [getD_append_zeros, readBitsWhole_pad, readBitsTrailing_pad]

theorem readBits_ok (B : List Nat) (index bitIndex nBits : Nat) (h : nBits ≤ 32) :
    ∃ out, readBits B index bitIndex nBits = .ok out := by
  unfold readBits
  rw [if_neg (by omega)]
  by_cases h1 : bitIndex ≠ 0
  · rw [if_pos h1]
    by_cases h2 : 8 - bitIndex ≥ nBits
    · rw [if_pos h2]
      by_cases h3 : bitIndex + nBits = 8
      · rw [if_pos h3]; exact ⟨_, rfl⟩
      · rw [if_neg h3]; exact ⟨_, rfl⟩
    · rw [if_neg h2]; exact ⟨_, rfl⟩
  · rw [if_neg h1]; exact ⟨_, rfl⟩


/-- Claim C7 (counterexample): reading 16 bits from the 1-byte buffer
`[0xA6]` — a read extending 8 bits past the end of the buffer — returns
`0xA600` (the missing byte read as zero) instead of failing with a
truncation error, refuting the claim that `readBits` fails whenever
`8*i + b + n > 8*|B|`. -/
theorem c7_past_end_read_counterexample :
    readBits [0xA6] 0 0 16 = .ok (2, 0, 0xA600) ∧
    8 * 0 + 0 + 16 > 8 * ([0xA6] : List Nat).length :=
  ⟨by rfl, by decide⟩

/-- Claim C7 (amended): `readBits` never fails on reads past the end of the
buffer.  For every `n ≤ 32` it returns a value, and it behaves on any buffer
exactly as on that buffer extended with `0x00` bytes (i.e. bytes past the
end are read as zero); the only failing case is `n > 32`, which throws. -/
theorem c7_read_bits_reads_past_end_as_zero :
    (∀ (B : List Nat) (index bitIndex nBits : Nat), nBits ≤ 32 →
        ∃ out, readBits B index bitIndex nBits = .ok out) ∧
    (∀ (B : List Nat) (index bitIndex nBits k : Nat),
        readBits (B ++ List.replicate k 0) index bitIndex nBits
          = readBits B index bitIndex nBits) ∧
    (∀ (B : List Nat) (index bitIndex nBits : Nat), nBits > 32 →
        readBits B index bitIndex nBits = .error .thrown) :=
  ⟨readBits_ok, fun B index bitIndex nBits k => readBits_pad B index bitIndex nBits k,
   fun B index bitIndex nBits h => by unfold readBits; rw [if_pos h]⟩

/-- Witness for the amended C7 at concrete inputs. -/
theorem c7_read_bits_witness :
    (∃ out, readBits [0xA6] 0 0 16 = .ok out) ∧
    readBits ([0xA6] ++ List.replicate 3 0) 0 0 16 = readBits [0xA6] 0 0 16 ∧
    readBits [0xA6] 0 0 33 = .error .thrown :=
  ⟨c7_read_bits_reads_past_end_as_zero.1 [0xA6] 0 0 16 (by decide),
   c7_read_bits_reads_past_end_as_zero.2.1 [0xA6] 0 0 16 3,
   c7_read_bits_reads_past_end_as_zero.2.2 [0xA6] 0 0 33 (by decide)⟩


/-! ### C3: readHuffmanTable and canonical Huffman codes -/

/-- `n.toString(2)` as a list of bits (most significant first); `"0"` for 0. -/
def natBitsAux : Nat → Nat → List Bool
  | 0, _ => []
  | fuel + 1, n => if n = 0 then [] else natBitsAux fuel (n / 2) ++ [n % 2 == 1]

def natBits (n : Nat) : List Bool := if n = 0 then [false] else natBitsAux (n + 1) n

/-- `String.prototype.padStart(len, '0')`: pad on the left up to `len`,
never truncating. -/
def padStart (bits : List Bool) (len : Nat) : List Bool :=
  List.replicate (len - bits.length) false ++ bits

/-- The bitstring the source builds for a code:
`nextCode.toString(2).padStart(codeLen, '0')`. -/
def jsCodeString (nextCode codeLen : Nat) : List Bool := padStart (natBits nextCode) codeLen

/-- The exactly-`len`-bit big-endian bitstring of `v` (the spec's
"as len-bit bitstrings"): bit `k` from the most significant end. -/
def fixedBits (len v : Nat) : List Bool :=
  (List.range len).map (fun k => v.testBit (len - 1 - k))

/-- `Map.prototype.set`: replace in place if the key is present, else append. -/
def setAssoc (m : List (List Bool × Nat)) (k : List Bool) (v : Nat) : List (List Bool × Nat) :=
  if m.any (fun e => e.1 == k) then m.map (fun e => if e.1 == k then (k, v) else e)
  else m ++ [(k, v)]

/-- The `while (nCodes-- > 0)` inner loop of `readHuffmanTable`: state is
`(codes, nextCode, nextValueIndex)`. -/
def huffInner (buffer : List Nat) (codeLen : Nat) :
    Nat → List (List Bool × Nat) × Nat × Nat → List (List Bool × Nat) × Nat × Nat
  | 0, st => st
  | n + 1, st =>
    huffInner buffer codeLen n
      (setAssoc st.1 (jsCodeString st.2.1 codeLen) (buffer.getD st.2.2 0),
       st.2.1 + 1, st.2.2 + 1)

structure HuffTable where
  tableClass : Nat
  tableNumber : Nat
  codes : List (List Bool × Nat)
  startIndex : Nat
  endIndex : Nat
deriving DecidableEq, Repr

/-- One iteration of the `for (codeLen = 1; codeLen <= 16; ...)` loop of
`readHuffmanTable` (including the final `nextCode <<= 1`). -/
def huffStep (buffer : List Nat) (index : Nat)
    (st : List (List Bool × Nat) × Nat × Nat) (i : Nat) :
    List (List Bool × Nat) × Nat × Nat :=
  let codeLen := i + 1
  let st := huffInner buffer codeLen (buffer.getD (index + codeLen) 0) st
  (st.1, st.2.1 <<< 1, st.2.2)

/-- `JPEG.prototype.readHuffmanTable`. -/
def readHuffmanTable (buffer : List Nat) (index : Nat) : HuffTable :=
  let tableClass := buffer.getD index 0 >>> 4
  let tableNumber := buffer.getD index 0 &&& 0xF
  let r := (List.range 16).foldl (huffStep buffer index) ([], 0, index + 17)
  ⟨tableClass, tableNumber, r.1, index, r.2.2⟩

/-- Modelled from the spec: the canonical-code construction, with codes taken
as exactly-`len`-bit strings (`fixedBits`) emitted in order, and
`nextCode = (nextCode + L_len) << 1` between lengths. -/
def canonicalInner (buffer : List Nat) (codeLen : Nat) :
    Nat → List (List Bool × Nat) × Nat × Nat → List (List Bool × Nat) × Nat × Nat
  | 0, st => st
  | n + 1, st =>
    canonicalInner buffer codeLen n
      (st.1 ++ [(fixedBits codeLen st.2.1, buffer.getD st.2.2 0)], st.2.1 + 1, st.2.2 + 1)

def canonicalStep (buffer : List Nat) (index : Nat)
    (st : List (List Bool × Nat) × Nat × Nat) (i : Nat) :
    List (List Bool × Nat) × Nat × Nat :=
  let codeLen := i + 1
  let st := canonicalInner buffer codeLen (buffer.getD (index + codeLen) 0) st
  (st.1, st.2.1 <<< 1, st.2.2)

def canonicalCodes (buffer : List Nat) (index : Nat) : List (List Bool × Nat) :=
  ((List.range 16).foldl (canonicalStep buffer index) ([], 0, index + 17)).1

/-- Validity of the 16 length counts: at each length the running `nextCode`
plus the count stays within `2 ^ len` (every well-formed DHT satisfies
this). -/
def huffCountsOk : List Nat → Nat → Nat → Bool
  | [], _, _ => true
  | l :: rest, nextCode, len =>
    decide (nextCode + l ≤ 2 ^ len) && huffCountsOk rest ((nextCode + l) <<< 1) (len + 1)

def dhtValid (buffer : List Nat) (index : Nat) : Bool :=
  huffCountsOk ((List.range 16).map (fun i => buffer.getD (index + i + 1) 0)) 0 1

/-- The K.3.3.1 BITS test payload of the spec's scenario 1: a DHT table
payload with properties byte 0, counts 0,1,5,1,1,1,1,1,1,0,…,0, and the
twelve symbols 0..11. -/
def bitsPayload : List Nat :=
  [0, 0, 1, 5, 1, 1, 1, 1, 1, 1, 0, 0, 0, 0, 0, 0, 0,
   0, 1, 2, 3, 4, 5, 6, 7, 8, 9, 10, 11]

/-- An overfull DHT payload: three codes of bit length 1. -/
def overfullPayload : List Nat := [0, 3] ++ List.replicate 15 0 ++ [7, 8, 9]


-- proofs

lemma natBitsAux_fuel : ∀ n f g, n ≤ f → n ≤ g → natBitsAux f n = natBitsAux g n := by
  intro n
  induction n using Nat.strong_induction_on with
  | _ n ih =>
    intro f g hf hg
    rcases Nat.eq_zero_or_pos n with hn | hn
    · subst hn
      cases f <;> cases g <;> simp [natBitsAux]
    · obtain ⟨f0, rfl⟩ : ∃ f0, f = f0 + 1 := ⟨f - 1, by omega⟩
      obtain ⟨g0, rfl⟩ : ∃ g0, g = g0 + 1 := ⟨g - 1, by omega⟩
      simp only [natBitsAux, if_neg (by omega : ¬ n = 0)]
      rw [ih (n / 2) (by omega) f0 g0 (by omega) (by omega)]

lemma natBits_two_le (v : Nat) (hv : 2 ≤ v) :
    natBits v = natBits (v / 2) ++ [v % 2 == 1] := by
  unfold natBits
  rw [if_neg (by omega), if_neg (by omega)]
  obtain ⟨w, rfl⟩ : ∃ w, v = w + 2 := ⟨v - 2, by omega⟩
  conv_lhs => rw [natBitsAux]
  rw [if_neg (by omega : ¬ w + 2 = 0)]
  congr 1
  exact natBitsAux_fuel ((w + 2) / 2) (w + 2) ((w + 2) / 2 + 1) (by omega) (by omega)

lemma fixedBits_length (len v : Nat) : (fixedBits len v).length = len := by
  simp [fixedBits]

lemma fixedBits_snoc (l v : Nat) :
    fixedBits (l + 1) v = fixedBits l (v / 2) ++ [v % 2 == 1] := by
  unfold fixedBits
  rw [List.range_succ, List.map_append]
  congr 1
  · apply List.map_congr_left
    intro k hk
    rw [List.mem_range] at hk
    rw [Nat.testBit_div_two]
    congr 1
    omega
  · simp only [List.map_cons, List.map_nil]
    congr 1
    rw [show l + 1 - 1 - l = 0 by omega, Nat.testBit_zero]
    rcases Nat.mod_two_eq_zero_or_one v with h | h <;> simp [h]

lemma fixedBits_zero (len : Nat) : fixedBits len 0 = List.replicate len false := by
  simp [fixedBits, Nat.zero_testBit, List.eq_replicate_iff]

lemma jsCodeString_eq_fixedBits :
    ∀ len v, 1 ≤ len → v < 2 ^ len → jsCodeString v len = fixedBits len v := by
  intro len
  induction len with
  | zero => omega
  | succ l ih =>
    intro v _ hv
    rcases Nat.lt_or_ge v 2 with h2 | h2
    · interval_cases v
      · rw [fixedBits_zero]
        simp [jsCodeString, padStart, natBits, List.replicate_succ']
      · rw [fixedBits_snoc]
        norm_num [fixedBits_zero]
        simp [jsCodeString, padStart, natBits, natBitsAux]
    · have hl : 1 ≤ l := by
        by_contra h
        have : l = 0 := by omega
        subst this
        omega
      have hv2 : v / 2 < 2 ^ l := by
        rw [pow_succ] at hv
        omega
      have := ih (v / 2) hl hv2
      unfold jsCodeString padStart at this ⊢
      rw [natBits_two_le v h2, fixedBits_snoc]
      rw [List.length_append, List.length_singleton]
      rw [show l + 1 - ((natBits (v / 2)).length + 1) = l - (natBits (v / 2)).length by omega]
      rw [← List.append_assoc, this]

lemma fixedBits_inj : ∀ len v w, v < 2 ^ len → w < 2 ^ len →
    fixedBits len v = fixedBits len w → v = w := by
  intro len
  induction len with
  | zero => intro v w hv hw _; omega
  | succ l ih =>
    intro v w hv hw h
    rw [fixedBits_snoc, fixedBits_snoc] at h
    have hlen : ([(v % 2 == 1)] : List Bool).length = ([(w % 2 == 1)] : List Bool).length := rfl
    obtain ⟨h1, h2⟩ := List.append_inj' h hlen
    have hd : v / 2 = w / 2 := by
      rw [pow_succ] at hv hw
      exact ih (v / 2) (w / 2) (by omega) (by omega) h1
    have hm : v % 2 = w % 2 := by
      rcases Nat.mod_two_eq_zero_or_one v with h | h <;>
        rcases Nat.mod_two_eq_zero_or_one w with h' | h' <;>
        simp [h, h'] at h2 ⊢ <;> omega
    omega


lemma setAssoc_append (m : List (List Bool × Nat)) (k : List Bool) (v : Nat)
    (h : ∀ e ∈ m, e.1 ≠ k) : setAssoc m k v = m ++ [(k, v)] := by
  unfold setAssoc
  rw [if_neg]
  intro hc
  rw [List.any_eq_true] at hc
  obtain ⟨e, he, hek⟩ := hc
  exact h e he (by simpa using hek)

lemma huffInner_eq_canonicalInner (buffer : List Nat) (codeLen : Nat) (hlen : 1 ≤ codeLen) :
    ∀ L codes nc nvi, nc + L ≤ 2 ^ codeLen →
    (∀ e ∈ codes, ∀ c, nc ≤ c → c < nc + L → e.1 ≠ fixedBits codeLen c) →
    huffInner buffer codeLen L (codes, nc, nvi) =
      canonicalInner buffer codeLen L (codes, nc, nvi) := by
  intro L
  induction L with
  | zero => intro codes nc nvi _ _; rfl
  | succ n ih =>
    intro codes nc nvi hle hne
    simp only [huffInner, canonicalInner]
    rw [jsCodeString_eq_fixedBits codeLen nc hlen (by omega)]
    rw [setAssoc_append _ _ _ (fun e he => hne e he nc (by omega) (by omega))]
    apply ih
    · omega
    · intro e he c hc1 hc2
      rw [List.mem_append] at he
      rcases he with he | he
      · exact hne e he c (by omega) (by omega)
      · rw [List.mem_singleton] at he
        subst he
        intro hcontra
        have := fixedBits_inj codeLen nc c (by omega) (by omega) hcontra
        omega

lemma canonicalInner_keys (buffer : List Nat) (codeLen : Nat) :
    ∀ L st e, e ∈ (canonicalInner buffer codeLen L st).1 →
      e ∈ st.1 ∨ e.1.length = codeLen := by
  intro L
  induction L with
  | zero => intro st e he; exact Or.inl he
  | succ n ih =>
    intro st e he
    simp only [canonicalInner] at he
    rcases ih _ e he with h | h
    · rw [List.mem_append] at h
      rcases h with h | h
      · exact Or.inl h
      · rw [List.mem_singleton] at h
        subst h
        exact Or.inr (fixedBits_length _ _)
    · exact Or.inr h

lemma canonicalInner_state (buffer : List Nat) (codeLen : Nat) :
    ∀ L codes nc nvi, (canonicalInner buffer codeLen L (codes, nc, nvi)).2 =
      (nc + L, nvi + L) := by
  intro L
  induction L with
  | zero => intro codes nc nvi; rfl
  | succ n ih =>
    intro codes nc nvi
    simp only [canonicalInner]
    rw [ih]
    rw [Prod.mk.injEq]
    constructor <;> omega

lemma huffFold_eq_canonicalFold (buffer : List Nat) (index : Nat) :
    ∀ n s st, (∀ e ∈ st.1, e.1.length ≤ s) →
    huffCountsOk ((List.range' s n).map (fun i => buffer.getD (index + i + 1) 0))
      st.2.1 (s + 1) = true →
    (List.range' s n).foldl (huffStep buffer index) st =
      (List.range' s n).foldl (canonicalStep buffer index) st := by
  intro n
  induction n with
  | zero => intro s st _ _; rfl
  | succ n ih =>
    intro s st hkeys hok
    obtain ⟨codes, nc, nvi⟩ := st
    simp only at hkeys hok
    rw [List.range'_succ] at hok ⊢
    rw [List.map_cons] at hok
    simp only [huffCountsOk, Bool.and_eq_true, decide_eq_true_eq] at hok
    obtain ⟨hbound, hrest⟩ := hok
    rw [List.foldl_cons, List.foldl_cons]
    have hstep : huffStep buffer index (codes, nc, nvi) s =
        canonicalStep buffer index (codes, nc, nvi) s := by
      unfold huffStep canonicalStep
      dsimp only
      rw [huffInner_eq_canonicalInner buffer (s + 1) (by omega)
        (buffer.getD (index + (s + 1)) 0) codes nc nvi
        (by rw [show index + (s + 1) = index + s + 1 from rfl]; omega)
        (fun e he c _ _ hcontra => by
          have h1 : e.1.length ≤ s := hkeys e he
          rw [hcontra, fixedBits_length] at h1
          omega)]
    rw [hstep]
    unfold canonicalStep
    dsimp only
    apply ih (s + 1)
    · intro e he
      simp only at he
      rcases canonicalInner_keys buffer (s + 1) _ _ e he with h | h
      · have := hkeys e h
        omega
      · omega
    · have hst := canonicalInner_state buffer (s + 1)
        (buffer.getD (index + (s + 1)) 0) codes nc nvi
      simp only
      rw [show ((canonicalInner buffer (s + 1) (buffer.getD (index + (s + 1)) 0)
            (codes, nc, nvi)).2.1) = nc + buffer.getD (index + (s + 1)) 0 from by
          rw [hst]]
      rw [show index + (s + 1) = index + s + 1 from rfl]
      exact hrest

theorem c3_main (buffer : List Nat) (index : Nat) (h : dhtValid buffer index = true) :
    (readHuffmanTable buffer index).codes = canonicalCodes buffer index := by
  unfold readHuffmanTable canonicalCodes
  have := huffFold_eq_canonicalFold buffer index 16 0 ([], 0, index + 17)
    (by intro e he; simp at he)
    (by
      unfold dhtValid at h
      rw [List.range_eq_range'] at h
      simpa using h)
  rw [List.range_eq_range']
  simp only at this ⊢
  rw [this]


/-- C3: for valid counts, `readHuffmanTable` builds exactly the canonical
code map; the BITS example yields the twelve listed pairs. -/
theorem c3_canonical_code_map :
    (∀ buffer index, dhtValid buffer index = true →
      (readHuffmanTable buffer index).codes = canonicalCodes buffer index) ∧
    (readHuffmanTable bitsPayload 0).codes =
      [([false, false], 0), ([false, true, false], 1), ([false, true, true], 2),
       ([true, false, false], 3), ([true, false, true], 4), ([true, true, false], 5),
       ([true, true, true, false], 6), ([true, true, true, true, false], 7),
       ([true, true, true, true, true, false], 8),
       ([true, true, true, true, true, true, false], 9),
       ([true, true, true, true, true, true, true, false], 10),
       ([true, true, true, true, true, true, true, true, false], 11)] :=
  ⟨fun buffer index h => c3_main buffer index h, by decide⟩

theorem c3_canonical_code_map_witness :
    dhtValid bitsPayload 0 = true ∧
    (readHuffmanTable bitsPayload 0).codes = canonicalCodes bitsPayload 0 :=
  ⟨by decide, c3_canonical_code_map.1 bitsPayload 0 (by decide)⟩

/-- C3 counterexample: with overfull counts the map is not length-faithful. -/
theorem c3_overfull_counts_counterexample :
    (readHuffmanTable overfullPayload 0).codes =
      [([false], 7), ([true], 8), ([true, false], 9)] ∧
    (readHuffmanTable overfullPayload 0).codes ≠ canonicalCodes overfullPayload 0 :=
  ⟨by decide, by decide⟩


/-! ### C2: the Huffman decoding DFA against naive longest-prefix matching -/

namespace Huffman

/-- A Huffman code table: bitstring keys (most significant bit first), in
JS `Map` iteration (= insertion) order, with their symbol values. -/
abbrev Table := List (List Bool × Nat)

/-- Map a fallible function over a list, failing if any element fails. -/
def optionMapList {α β : Type} (f : α → Option β) : List α → Option (List β)
  | [] => some []
  | a :: l =>
    match f a with
    | none => none
    | some b =>
      match optionMapList f l with
      | none => none
      | some bs => some (b :: bs)

/-- The proper nonempty prefixes `key.slice(0, i)` for `1 <= i < key.length`. -/
def properPrefixesOf (key : List Bool) : List (List Bool) :=
  (List.range' 1 (key.length - 1)).map (fun i => key.take i)

/-- The `prefixes` map of `prepareDecoder` as the list of its keys in
insertion order: position = state number, `''` is state 0. -/
def buildPrefixes (table : Table) : List (List Bool) :=
  table.foldl (fun acc kv =>
    (properPrefixesOf kv.1).foldl (fun acc p => if p ∈ acc then acc else acc ++ [p]) acc)
    [[]]

/-- The `buildEmit` loop: repeatedly strip the first table code that is a
prefix of `bs`, collecting the emitted symbols.  `none` models the JS
infinite loop that an empty-string key would cause. -/
def buildEmitLoop (table : Table) : Nat → List Bool → List Nat → Option (List Nat × List Bool)
  | 0, _, _ => none
  | fuel + 1, bs, acc =>
    match table.find? (fun kv => kv.1.isPrefixOf bs) with
    | some kv => buildEmitLoop table fuel (bs.drop kv.1.length) (acc ++ [kv.2])
    | none => some (acc, bs)

def greedyStrip (table : Table) (bs : List Bool) : Option (List Nat × List Bool) :=
  buildEmitLoop table (bs.length + 1) bs []

structure HuffState where
  pfx : List Bool
  emit : List (List Nat)
  goto : List (Option Nat)
  bitIndex : List Nat
deriving DecidableEq, Repr

/-- `prefixes.get(bitstring)`: the state number of a residual, if any. -/
def stateGoto (prefixes : List (List Bool)) (resid : List Bool) : Option Nat :=
  if resid ∈ prefixes then some (prefixes.indexOf resid) else none

/-- One transition-table row of `prepareDecoder` for the prefix `pfx`. -/
def mkState (table : Table) (prefixes : List (List Bool)) (pfx : List Bool) :
    Option HuffState :=
  (optionMapList (fun i => greedyStrip table (pfx ++ jsCodeString i 4)) (List.range 16)).map
    (fun rs =>
      { pfx := pfx
        emit := rs.map (fun r => r.1)
        goto := rs.map (fun r => stateGoto prefixes r.2)
        bitIndex := (List.range 16).map (fun i =>
          match table.find? (fun kv => kv.1.isPrefixOf (pfx ++ jsCodeString i 4)) with
          | some kv => kv.1.length - pfx.length
          | none => 0) })

/-- One of the 3 special states handling 1-3 leading bits (used only by
`decodeOne`, never reachable through any `goto`). -/
def mkExtraState (table : Table) (prefixes : List (List Bool)) (nBits : Nat) :
    Option HuffState :=
  (optionMapList (fun i => greedyStrip table (jsCodeString i nBits)) (List.range (2 ^ nBits))).map
    (fun rs =>
      { pfx := []
        emit := rs.map (fun r => r.1)
        goto := rs.map (fun r => stateGoto prefixes r.2)
        bitIndex := (List.range (2 ^ nBits)).map (fun i =>
          match table.find? (fun kv => kv.1.isPrefixOf (jsCodeString i nBits)) with
          | some kv => kv.1.length
          | none => 0) })

/-- `prepareDecoder`: the state array, indexed by state number, followed by
the three special states (at indices `stateNumber`, `stateNumber+1`,
`stateNumber+2` for 3, 2 and 1 leading bits respectively). -/
def prepareDecoder (table : Table) : Option (List HuffState) :=
  (optionMapList (mkState table (buildPrefixes table)) (buildPrefixes table)).bind fun sts =>
    (mkExtraState table (buildPrefixes table) 3).bind fun e3 =>
      (mkExtraState table (buildPrefixes table) 2).bind fun e2 =>
        (mkExtraState table (buildPrefixes table) 1).map fun e1 =>
          sts ++ [e3, e2, e1]

/-- The `while (position < end)` loop of `decodeBuffer`; `fuel` counts the
remaining loop iterations (`e - position`). -/
def decodeBufferLoop (decoder : List HuffState) (buffer : List Nat) (e : Nat) :
    Nat → Nat → HuffState → List Nat → Except JsError (List Nat)
  | 0, position, _, result =>
    if position < e then .error .fuelExhausted else .ok result
  | fuel + 1, position, state, result =>
    if position < e then
      let value := buffer.getD position 0
      let r1 := result ++ state.emit.getD (value >>> 4) []
      match state.goto.getD (value >>> 4) none with
      | some g =>
        match decoder.get? g with
        | none => .error .typeError
        | some st1 =>
          let r2 := r1 ++ st1.emit.getD (value &&& 0xF) []
          match st1.goto.getD (value &&& 0xF) none with
          | some g2 =>
            match decoder.get? g2 with
            | none => .error .typeError
            | some st2 => decodeBufferLoop decoder buffer e fuel (position + 1) st2 r2
          | none => if position < e - 1 then .error .thrown else .ok r2
      | none => if position < e - 1 then .error .thrown else .ok r1
    else .ok result

/-- `decodeBuffer(buffer, start, end, decoder)`. -/
def decodeBuffer (buffer : List Nat) (start e : Nat) (decoder : List HuffState) :
    Except JsError (List Nat) :=
  match decoder.get? 0 with
  | none => .error .typeError
  | some st0 => decodeBufferLoop decoder buffer e (e - start) start st0 []

/-! Spec-side naive decoder. -/

/-- Modelled from the spec: the longest table code that is a prefix of `bs`. -/
def longestMatch (table : Table) (bs : List Bool) : Option (List Bool × Nat) :=
  (table.filter (fun kv => kv.1.isPrefixOf bs)).argmax (fun kv => kv.1.length)

/-- Modelled from the spec: iterated longest-prefix matching, emitting each
matched symbol and stopping when no code matches. -/
def naiveLoop (table : Table) : Nat → List Bool → List Nat
  | 0, _ => []
  | fuel + 1, bs =>
    match longestMatch table bs with
    | none => []
    | some kv => kv.2 :: naiveLoop table fuel (bs.drop kv.1.length)

def naiveDecode (table : Table) (bs : List Bool) : List Nat :=
  naiveLoop table (bs.length + 1) bs

/-- The bit sequence (MSB first) of bytes `start..e-1` of the buffer. -/
def bytesToBits (buffer : List Nat) (start e : Nat) : List Bool :=
  ((List.range' start (e - start)).map (fun p => fixedBits 8 (buffer.getD p 0))).flatten

/-- Pairwise prefix-freeness of the table's keys (in particular all keys
are distinct). -/
def PrefixFree (table : Table) : Prop :=
  table.Pairwise (fun a b => ¬a.1 <+: b.1 ∧ ¬b.1 <+: a.1)

def scenarioTable : Table :=
  [([false, false], 1), ([false, true, false], 2), ([false, true, true], 3)]



lemma isPrefixOf_eq_true {l1 l2 : List Bool} : l1.isPrefixOf l2 = true ↔ l1 <+: l2 :=
  List.isPrefixOf_iff_prefix

/-- Common facts about the entry returned by the `find?` scan. -/
lemma find_facts {table : Table} {bs : List Bool} {kv : List Bool × Nat}
    (hne : ∀ e ∈ table, e.1 ≠ [])
    (h : table.find? (fun e => e.1.isPrefixOf bs) = some kv) :
    kv ∈ table ∧ kv.1 <+: bs ∧ 1 ≤ kv.1.length ∧ kv.1.length ≤ bs.length := by
  have hmem := List.mem_of_find?_eq_some h
  have hpb := List.find?_some h
  simp only [isPrefixOf_eq_true] at hpb
  have hk : kv.1 ≠ [] := hne kv hmem
  refine ⟨hmem, hpb, ?_, hpb.length_le⟩
  cases hkk : kv.1 with
  | nil => exact absurd hkk hk
  | cons a t => simp [hkk]

lemma buildEmitLoop_fuel (table : Table) (hne : ∀ kv ∈ table, kv.1 ≠ []) :
    ∀ f g bs acc, bs.length < f → bs.length < g →
    buildEmitLoop table f bs acc = buildEmitLoop table g bs acc := by
  intro f
  induction f with
  | zero => intro g bs acc hf; omega
  | succ f ih =>
    intro g bs acc hf hg
    obtain ⟨g0, rfl⟩ : ∃ g0, g = g0 + 1 := ⟨g - 1, by omega⟩
    simp only [buildEmitLoop]
    cases hfind : table.find? (fun kv => kv.1.isPrefixOf bs) with
    | none => rfl
    | some kv =>
      obtain ⟨hmem, hp, h1, h2⟩ := find_facts hne hfind
      dsimp only
      apply ih
      · rw [List.length_drop]; omega
      · rw [List.length_drop]; omega

lemma buildEmitLoop_acc (table : Table) :
    ∀ f bs acc, buildEmitLoop table f bs acc =
      (buildEmitLoop table f bs []).map (fun r => (acc ++ r.1, r.2)) := by
  intro f
  induction f with
  | zero => intro bs acc; rfl
  | succ f ih =>
    intro bs acc
    simp only [buildEmitLoop]
    cases hfind : table.find? (fun kv => kv.1.isPrefixOf bs) with
    | none => simp
    | some kv =>
      dsimp only
      rw [ih (bs.drop kv.1.length) (acc ++ [kv.2]), ih (bs.drop kv.1.length) ([] ++ [kv.2])]
      cases buildEmitLoop table f (bs.drop kv.1.length) [] with
      | none => rfl
      | some r => simp

lemma greedyStrip_total (table : Table) (hne : ∀ kv ∈ table, kv.1 ≠ []) :
    ∀ f bs acc, bs.length < f → ∃ r, buildEmitLoop table f bs acc = some r := by
  intro f
  induction f with
  | zero => intro bs acc h; omega
  | succ f ih =>
    intro bs acc h
    simp only [buildEmitLoop]
    cases hfind : table.find? (fun kv => kv.1.isPrefixOf bs) with
    | none => exact ⟨(acc, bs), rfl⟩
    | some kv =>
      obtain ⟨hmem, hp, h1, h2⟩ := find_facts hne hfind
      dsimp only
      apply ih
      rw [List.length_drop]
      omega

lemma greedyStrip_no_match (table : Table) (bs : List Bool)
    (h : table.find? (fun kv => kv.1.isPrefixOf bs) = none) :
    greedyStrip table bs = some ([], bs) := by
  unfold greedyStrip
  simp only [buildEmitLoop, h]

lemma greedyStrip_match (table : Table) (hne : ∀ kv ∈ table, kv.1 ≠ [])
    (bs : List Bool) (kv : List Bool × Nat)
    (h : table.find? (fun e => e.1.isPrefixOf bs) = some kv) :
    greedyStrip table bs =
      (greedyStrip table (bs.drop kv.1.length)).map (fun r => (kv.2 :: r.1, r.2)) := by
  obtain ⟨hmem, hp, h1, h2⟩ := find_facts hne h
  unfold greedyStrip
  conv_lhs => rw [buildEmitLoop]
  rw [h]
  dsimp only
  rw [buildEmitLoop_acc table bs.length]
  rw [buildEmitLoop_fuel table hne bs.length ((bs.drop kv.1.length).length + 1)
    (bs.drop kv.1.length) [] (by rw [List.length_drop]; omega) (by omega)]
  cases buildEmitLoop table ((bs.drop kv.1.length).length + 1) (bs.drop kv.1.length) [] with
  | none => rfl
  | some r => simp

lemma greedyStrip_resid (table : Table) (hne : ∀ kv ∈ table, kv.1 ≠ []) :
    ∀ n bs E R, bs.length ≤ n → greedyStrip table bs = some (E, R) →
      table.find? (fun kv => kv.1.isPrefixOf R) = none := by
  intro n
  induction n with
  | zero =>
    intro bs E R hn h
    have hbs : bs = [] := List.eq_nil_of_length_eq_zero (by omega)
    subst hbs
    cases hfind : table.find? (fun kv => kv.1.isPrefixOf ([] : List Bool)) with
    | none =>
      rw [greedyStrip_no_match table [] hfind] at h
      simp only [Option.some.injEq, Prod.mk.injEq] at h
      obtain ⟨h1, h2⟩ := h
      subst h2
      exact hfind
    | some kv =>
      obtain ⟨hmem, hp, h1, h2⟩ := find_facts hne hfind
      simp only [List.length_nil, Nat.le_zero, List.length_eq_zero] at h2
      exact absurd h2 (hne kv hmem)
  | succ n ih =>
    intro bs E R hn h
    cases hfind : table.find? (fun kv => kv.1.isPrefixOf bs) with
    | none =>
      rw [greedyStrip_no_match table bs hfind] at h
      simp only [Option.some.injEq, Prod.mk.injEq] at h
      obtain ⟨h1, h2⟩ := h
      subst h2
      exact hfind
    | some kv =>
      rw [greedyStrip_match table hne bs kv hfind] at h
      cases hg : greedyStrip table (bs.drop kv.1.length) with
      | none => rw [hg] at h; simp at h
      | some r =>
        rw [hg] at h
        simp only [Option.map_some', Option.some.injEq, Prod.mk.injEq] at h
        obtain ⟨h1, h2⟩ := h
        subst h2
        obtain ⟨hmem, hp, hk1, hk2⟩ := find_facts hne hfind
        exact ih (bs.drop kv.1.length) r.1 r.2 (by rw [List.length_drop]; omega)
          (by rw [hg])


lemma prefixFree_nodup {table : Table} (hpf : PrefixFree table) : table.Nodup := by
  unfold PrefixFree at hpf
  refine List.Pairwise.imp ?_ hpf
  intro a b ⟨h1, _⟩ heq
  subst heq
  exact h1 List.prefix_rfl

lemma find_of_mem {table : Table} (hpf : PrefixFree table) {kv : List Bool × Nat}
    (hmem : kv ∈ table) {bs : List Bool} (hpre : kv.1 <+: bs) :
    table.find? (fun e => e.1.isPrefixOf bs) = some kv := by
  cases hf : table.find? (fun e => e.1.isPrefixOf bs) with
  | none =>
    rw [List.find?_eq_none] at hf
    exact absurd (isPrefixOf_eq_true.mpr hpre) (hf kv hmem)
  | some e =>
    have he := List.mem_of_find?_eq_some hf
    have hpe := List.find?_some hf
    simp only [isPrefixOf_eq_true] at hpe
    by_cases heq : e = kv
    · rw [heq]
    · have hsym : Symmetric (fun a b : List Bool × Nat => ¬a.1 <+: b.1 ∧ ¬b.1 <+: a.1) := by
        intro a b ⟨u, v⟩
        exact ⟨v, u⟩
      obtain ⟨h1, h2⟩ := hpf.forall hsym he hmem heq
      rcases Nat.le_total e.1.length kv.1.length with hl | hl
      · exact absurd (List.prefix_of_prefix_length_le hpe hpre hl) h1
      · exact absurd (List.prefix_of_prefix_length_le hpre hpe hl) h2

lemma eq_singleton_of_mem {α : Type} {l : List α} {a : α}
    (h1 : a ∈ l) (h2 : ∀ b ∈ l, b = a) (h3 : l.Nodup) : l = [a] := by
  cases l with
  | nil => exact absurd h1 (List.not_mem_nil a)
  | cons b t =>
    have hb : b = a := h2 b (List.mem_cons_self b t)
    subst hb
    rcases List.nodup_cons.mp h3 with ⟨hbt, _⟩
    cases t with
    | nil => rfl
    | cons c t' =>
      have hc : c = b := h2 c (by simp)
      subst hc
      exact absurd (List.mem_cons_self c t') hbt

lemma longestMatch_eq_find (table : Table) (hpf : PrefixFree table) (bs : List Bool) :
    longestMatch table bs = table.find? (fun e => e.1.isPrefixOf bs) := by
  unfold longestMatch
  cases hf : table.find? (fun e => e.1.isPrefixOf bs) with
  | none =>
    rw [List.find?_eq_none] at hf
    have : table.filter (fun kv => kv.1.isPrefixOf bs) = [] := by
      rw [List.filter_eq_nil]
      exact hf
    rw [this, List.argmax_nil]
  | some kv =>
    have hmem := List.mem_of_find?_eq_some hf
    have hpk := List.find?_some hf
    have hsingle : table.filter (fun kv => kv.1.isPrefixOf bs) = [kv] := by
      apply eq_singleton_of_mem
      · rw [List.mem_filter]
        exact ⟨hmem, hpk⟩
      · intro b hbmem
        rw [List.mem_filter] at hbmem
        obtain ⟨hbt, hbp⟩ := hbmem
        simp only [isPrefixOf_eq_true] at hbp
        have := find_of_mem hpf hbt hbp
        rw [hf] at this
        injection this with h
        exact h.symm
      · exact (prefixFree_nodup hpf).filter _
    rw [hsingle, List.argmax_singleton]

lemma greedyStrip_append (table : Table) (hpf : PrefixFree table)
    (hne : ∀ kv ∈ table, kv.1 ≠ []) :
    ∀ n bs, bs.length ≤ n → ∀ cs E1 R1 E2 R2,
      greedyStrip table bs = some (E1, R1) →
      greedyStrip table (R1 ++ cs) = some (E2, R2) →
      greedyStrip table (bs ++ cs) = some (E1 ++ E2, R2) := by
  intro n
  induction n with
  | zero =>
    intro bs hn cs E1 R1 E2 R2 h1 h2
    have hbs : bs = [] := List.eq_nil_of_length_eq_zero (by omega)
    subst hbs
    cases hfind : table.find? (fun kv => kv.1.isPrefixOf ([] : List Bool)) with
    | none =>
      rw [greedyStrip_no_match table [] hfind] at h1
      simp only [Option.some.injEq, Prod.mk.injEq] at h1
      obtain ⟨hE, hR⟩ := h1
      subst hE; subst hR
      simpa using h2
    | some kv =>
      obtain ⟨hmem, hp, hk1, hk2⟩ := find_facts hne hfind
      simp only [List.length_nil, Nat.le_zero, List.length_eq_zero] at hk2
      exact absurd hk2 (hne kv hmem)
  | succ n ih =>
    intro bs hn cs E1 R1 E2 R2 h1 h2
    cases hfind : table.find? (fun kv => kv.1.isPrefixOf bs) with
    | none =>
      rw [greedyStrip_no_match table bs hfind] at h1
      simp only [Option.some.injEq, Prod.mk.injEq] at h1
      obtain ⟨hE, hR⟩ := h1
      subst hE; subst hR
      simpa using h2
    | some kv =>
      obtain ⟨hmem, hp, hk1, hk2⟩ := find_facts hne hfind
      have hfind2 : table.find? (fun e => e.1.isPrefixOf (bs ++ cs)) = some kv :=
        find_of_mem hpf hmem (hp.trans (List.prefix_append bs cs))
      rw [greedyStrip_match table hne bs kv hfind] at h1
      cases hg : greedyStrip table (bs.drop kv.1.length) with
      | none => rw [hg] at h1; simp at h1
      | some r =>
        rw [hg] at h1
        simp only [Option.map_some', Option.some.injEq, Prod.mk.injEq] at h1
        obtain ⟨hE, hR⟩ := h1
        rw [greedyStrip_match table hne (bs ++ cs) kv hfind2]
        rw [List.drop_append_of_le_length hk2]
        have hrec := ih (bs.drop kv.1.length) (by rw [List.length_drop]; omega)
          cs r.1 r.2 E2 R2 (by rw [hg]) (by rw [hR]; exact h2)
        rw [hrec]
        simp only [Option.map_some']
        rw [← hE, List.cons_append]

lemma naiveLoop_eq_greedy (table : Table) (hpf : PrefixFree table)
    (hne : ∀ kv ∈ table, kv.1 ≠ []) :
    ∀ n bs E R, bs.length ≤ n → greedyStrip table bs = some (E, R) →
      ∀ f, bs.length < f → naiveLoop table f bs = E := by
  intro n
  induction n with
  | zero =>
    intro bs E R hn h f hf
    have hbs : bs = [] := List.eq_nil_of_length_eq_zero (by omega)
    subst hbs
    obtain ⟨f0, rfl⟩ : ∃ f0, f = f0 + 1 := ⟨f - 1, by omega⟩
    cases hfind : table.find? (fun kv => kv.1.isPrefixOf ([] : List Bool)) with
    | none =>
      rw [greedyStrip_no_match table [] hfind] at h
      simp only [Option.some.injEq, Prod.mk.injEq] at h
      obtain ⟨hE, hR⟩ := h
      subst hE
      simp only [naiveLoop, longestMatch_eq_find table hpf, hfind]
    | some kv =>
      obtain ⟨hmem, hp, hk1, hk2⟩ := find_facts hne hfind
      simp only [List.length_nil, Nat.le_zero, List.length_eq_zero] at hk2
      exact absurd hk2 (hne kv hmem)
  | succ n ih =>
    intro bs E R hn h f hf
    obtain ⟨f0, rfl⟩ : ∃ f0, f = f0 + 1 := ⟨f - 1, by omega⟩
    cases hfind : table.find? (fun kv => kv.1.isPrefixOf bs) with
    | none =>
      rw [greedyStrip_no_match table bs hfind] at h
      simp only [Option.some.injEq, Prod.mk.injEq] at h
      obtain ⟨hE, hR⟩ := h
      subst hE
      simp only [naiveLoop, longestMatch_eq_find table hpf, hfind]
    | some kv =>
      obtain ⟨hmem, hp, hk1, hk2⟩ := find_facts hne hfind
      rw [greedyStrip_match table hne bs kv hfind] at h
      cases hg : greedyStrip table (bs.drop kv.1.length) with
      | none => rw [hg] at h; simp at h
      | some r =>
        rw [hg] at h
        simp only [Option.map_some', Option.some.injEq, Prod.mk.injEq] at h
        obtain ⟨hE, hR⟩ := h
        simp only [naiveLoop, longestMatch_eq_find table hpf, hfind]
        rw [← hE]
        congr 1
        exact ih (bs.drop kv.1.length) r.1 r.2 (by rw [List.length_drop]; omega)
          (by rw [hg]) f0 (by rw [List.length_drop]; omega)

lemma naiveDecode_eq_greedy (table : Table) (hpf : PrefixFree table)
    (hne : ∀ kv ∈ table, kv.1 ≠ []) (bs : List Bool) (E : List Nat) (R : List Bool)
    (h : greedyStrip table bs = some (E, R)) : naiveDecode table bs = E :=
  naiveLoop_eq_greedy table hpf hne bs.length bs E R (Nat.le_refl _) h
    (bs.length + 1) (by omega)


lemma addAll_mem (l : List (List Bool)) :
    ∀ acc x, (x ∈ l.foldl (fun acc p => if p ∈ acc then acc else acc ++ [p]) acc ↔
      x ∈ acc ∨ x ∈ l) := by
  induction l with
  | nil => simp
  | cons p t ih =>
    intro acc x
    simp only [List.foldl_cons]
    rw [ih]
    by_cases hp : p ∈ acc
    · rw [if_pos hp]
      constructor
      · rintro (h | h)
        · exact Or.inl h
        · exact Or.inr (List.mem_cons_of_mem p h)
      · rintro (h | h)
        · exact Or.inl h
        · rcases List.mem_cons.mp h with rfl | h
          · exact Or.inl hp
          · exact Or.inr h
    · rw [if_neg hp]
      simp only [List.mem_append, List.mem_singleton, List.mem_cons]
      tauto

lemma mem_buildPrefixes (table : Table) :
    ∀ x, (x ∈ buildPrefixes table ↔ x = [] ∨ ∃ kv ∈ table, x ∈ properPrefixesOf kv.1) := by
  have main : ∀ (t : Table) (acc : List (List Bool)) (x : List Bool),
      (x ∈ t.foldl (fun acc kv =>
        (properPrefixesOf kv.1).foldl (fun acc p => if p ∈ acc then acc else acc ++ [p]) acc)
        acc ↔ x ∈ acc ∨ ∃ kv ∈ t, x ∈ properPrefixesOf kv.1) := by
    intro t
    induction t with
    | nil => simp
    | cons kv t ih =>
      intro acc x
      simp only [List.foldl_cons]
      rw [ih, addAll_mem]
      constructor
      · rintro ((h | h) | ⟨kv', hm, hp⟩)
        · exact Or.inl h
        · exact Or.inr ⟨kv, List.mem_cons_self _ _, h⟩
        · exact Or.inr ⟨kv', List.mem_cons_of_mem _ hm, hp⟩
      · rintro (h | ⟨kv', hm, hp⟩)
        · exact Or.inl (Or.inl h)
        · rcases List.mem_cons.mp hm with rfl | hm
          · exact Or.inl (Or.inr hp)
          · exact Or.inr ⟨kv', hm, hp⟩
  intro x
  unfold buildPrefixes
  rw [main]
  simp only [List.mem_singleton]

lemma mem_properPrefixesOf {p k : List Bool} :
    p ∈ properPrefixesOf k ↔ ∃ i, 1 ≤ i ∧ i < k.length ∧ p = k.take i := by
  unfold properPrefixesOf
  simp only [List.mem_map, List.mem_range'_1]
  constructor
  · rintro ⟨i, ⟨h1, h2⟩, rfl⟩
    exact ⟨i, h1, by omega, rfl⟩
  · rintro ⟨i, h1, h2, rfl⟩
    exact ⟨i, ⟨h1, by omega⟩, rfl⟩

lemma nil_mem_buildPrefixes (table : Table) : [] ∈ buildPrefixes table :=
  (mem_buildPrefixes table []).mpr (Or.inl rfl)

lemma mem_buildPrefixes_of_proper (table : Table) {p : List Bool} {kv : List Bool × Nat}
    (hmem : kv ∈ table) (hp : p <+: kv.1) (hpne : p ≠ [])
    (hproper : p.length < kv.1.length) : p ∈ buildPrefixes table := by
  rw [mem_buildPrefixes]
  right
  refine ⟨kv, hmem, mem_properPrefixesOf.mpr ⟨p.length, ?_, hproper, ?_⟩⟩
  · cases hpp : p with
    | nil => exact absurd hpp hpne
    | cons a t => simp [hpp]
  · exact List.prefix_iff_eq_take.mp hp

lemma no_key_prefix_of_state (table : Table) (hpf : PrefixFree table)
    (hne : ∀ kv ∈ table, kv.1 ≠ []) {s : List Bool} (hs : s ∈ buildPrefixes table) :
    table.find? (fun kv => kv.1.isPrefixOf s) = none := by
  rw [List.find?_eq_none]
  intro kv hkv hpre
  simp only [isPrefixOf_eq_true] at hpre
  rw [mem_buildPrefixes] at hs
  rcases hs with rfl | ⟨kv', hmem', hp'⟩
  · rw [List.prefix_nil] at hpre
    exact hne kv hkv hpre
  · obtain ⟨i, hi1, hi2, rfl⟩ := mem_properPrefixesOf.mp hp'
    have htk : kv'.1.take i <+: kv'.1 := List.take_prefix i kv'.1
    have htrans : kv.1 <+: kv'.1 := hpre.trans htk
    have hlen : kv.1.length < kv'.1.length := by
      have h1 := hpre.length_le
      rw [List.length_take] at h1
      omega
    have hneq : kv ≠ kv' := by
      intro h
      rw [h] at hlen
      omega
    have hsym : Symmetric (fun a b : List Bool × Nat => ¬a.1 <+: b.1 ∧ ¬b.1 <+: a.1) := by
      intro a b ⟨u, v⟩
      exact ⟨v, u⟩
    obtain ⟨h1, h2⟩ := hpf.forall hsym hkv hmem' hneq
    exact h1 htrans

lemma dead_resid (table : Table) (hpf : PrefixFree table)
    (hne : ∀ kv ∈ table, kv.1 ≠ []) {R : List Bool}
    (hnomatch : table.find? (fun kv => kv.1.isPrefixOf R) = none)
    (hnot : R ∉ buildPrefixes table) (cs : List Bool) :
    table.find? (fun kv => kv.1.isPrefixOf (R ++ cs)) = none := by
  rw [List.find?_eq_none]
  intro kv hkv hpre
  simp only [isPrefixOf_eq_true] at hpre
  rw [List.find?_eq_none] at hnomatch
  rcases Nat.le_total kv.1.length R.length with hl | hl
  · have : kv.1 <+: R := List.prefix_of_prefix_length_le hpre (List.prefix_append R cs) hl
    exact hnomatch kv hkv (isPrefixOf_eq_true.mpr this)
  · have hRk : R <+: kv.1 := List.prefix_of_prefix_length_le (List.prefix_append R cs) hpre hl
    rcases Nat.lt_or_ge R.length kv.1.length with hlt | hge
    · have hRne : R ≠ [] := by
        intro h
        subst h
        exact hnot (nil_mem_buildPrefixes table)
      exact hnot (mem_buildPrefixes_of_proper table hkv hRk hRne hlt)
    · have hReq : R = kv.1 := List.IsPrefix.eq_of_length hRk (by omega)
      exact hnomatch kv hkv (isPrefixOf_eq_true.mpr (hReq ▸ List.prefix_rfl))

lemma optionMapList_facts {α β : Type} (f : α → Option β) :
    ∀ (l : List α) (rs : List β), optionMapList f l = some rs →
      rs.length = l.length ∧ ∀ i a, l.get? i = some a →
        ∃ b, rs.get? i = some b ∧ f a = some b := by
  intro l
  induction l with
  | nil =>
    intro rs h
    simp only [optionMapList, Option.some.injEq] at h
    subst h
    refine ⟨rfl, ?_⟩
    intro i a ha
    simp at ha
  | cons x t ih =>
    intro rs h
    simp only [optionMapList] at h
    cases hfx : f x with
    | none => rw [hfx] at h; simp at h
    | some b =>
      rw [hfx] at h
      cases hmt : optionMapList f t with
      | none => rw [hmt] at h; simp at h
      | some bs =>
        rw [hmt] at h
        simp only [Option.some.injEq] at h
        subst h
        obtain ⟨hlen, hget⟩ := ih bs hmt
        refine ⟨by simp [hlen], ?_⟩
        intro i a ha
        cases i with
        | zero =>
          simp only [List.get?_cons_zero, Option.some.injEq] at ha ⊢
          subst ha
          exact ⟨b, rfl, hfx⟩
        | succ i =>
          simp only [List.get?_cons_succ] at ha ⊢
          exact hget i a ha


lemma mkState_facts {table : Table} {prefixes : List (List Bool)} {pfx : List Bool}
    {st : HuffState} (h : mkState table prefixes pfx = some st) :
    st.pfx = pfx ∧ ∀ i, i < 16 →
      ∃ E R, greedyStrip table (pfx ++ jsCodeString i 4) = some (E, R) ∧
        st.emit.getD i [] = E ∧ st.goto.getD i none = stateGoto prefixes R := by
  unfold mkState at h
  cases hm : optionMapList (fun i => greedyStrip table (pfx ++ jsCodeString i 4))
      (List.range 16) with
  | none => rw [hm] at h; simp at h
  | some rs =>
    rw [hm] at h
    simp only [Option.map_some', Option.some.injEq] at h
    subst h
    obtain ⟨hlen, hget⟩ := optionMapList_facts _ _ _ hm
    refine ⟨rfl, ?_⟩
    intro i hi
    obtain ⟨r, hr, hgr⟩ := hget i i (List.get?_range hi)
    refine ⟨r.1, r.2, hgr, ?_, ?_⟩
    · show ((rs.map (fun r => r.1)).get? i).getD [] = r.1
      rw [List.get?_map, hr]
      rfl
    · show ((rs.map (fun r => stateGoto prefixes r.2)).get? i).getD none = stateGoto prefixes r.2
      rw [List.get?_map, hr]
      rfl

lemma prepareDecoder_facts {table : Table} {decoder : List HuffState}
    (h : prepareDecoder table = some decoder) :
    ∀ g p, (buildPrefixes table).get? g = some p →
      ∃ st, decoder.get? g = some st ∧ mkState table (buildPrefixes table) p = some st := by
  unfold prepareDecoder at h
  cases hm : optionMapList (mkState table (buildPrefixes table)) (buildPrefixes table) with
  | none => rw [hm] at h; simp at h
  | some sts =>
    rw [hm] at h
    cases he3 : mkExtraState table (buildPrefixes table) 3 with
    | none => rw [he3] at h; simp at h
    | some e3 =>
      rw [he3] at h
      cases he2 : mkExtraState table (buildPrefixes table) 2 with
      | none => rw [he2] at h; simp at h
      | some e2 =>
        rw [he2] at h
        cases he1 : mkExtraState table (buildPrefixes table) 1 with
        | none => rw [he1] at h; simp at h
        | some e1 =>
          rw [he1] at h
          simp only [Option.some_bind, Option.map_some', Option.some.injEq] at h
          subst h
          obtain ⟨hlen, hget⟩ := optionMapList_facts _ _ _ hm
          intro g p hg
          have hglt : g < (buildPrefixes table).length := by
            by_contra hc
            rw [List.get?_eq_none.mpr (by omega)] at hg
            exact Option.noConfusion hg
          obtain ⟨st, hst, hmk⟩ := hget g p hg
          refine ⟨st, ?_, hmk⟩
          rw [List.get?_append (by omega : g < sts.length)]
          exact hst

lemma get?_indexOf_mem :
    ∀ (l : List (List Bool)) (a : List Bool), a ∈ l → l.get? (l.indexOf a) = some a := by
  intro l
  induction l with
  | nil => simp
  | cons b t ih =>
    intro a ha
    rw [List.indexOf_cons]
    by_cases h : b = a
    · subst h
      simp
    · have hba : (b == a) = false := by
        simp only [beq_eq_false_iff_ne, ne_eq]
        exact h
      rw [hba]
      simp only [cond_false, List.get?_cons_succ]
      refine ih a ?_
      rcases List.mem_cons.mp ha with rfl | hm
      · exact absurd rfl h
      · exact hm

lemma stateGoto_some {prefixes : List (List Bool)} {R : List Bool} {g : Nat}
    (h : stateGoto prefixes R = some g) : prefixes.get? g = some R ∧ R ∈ prefixes := by
  unfold stateGoto at h
  by_cases hm : R ∈ prefixes
  · rw [if_pos hm] at h
    injection h with h
    subst h
    refine ⟨?_, hm⟩
    exact get?_indexOf_mem prefixes R hm
  · rw [if_neg hm] at h
    exact Option.noConfusion h

lemma stateGoto_none {prefixes : List (List Bool)} {R : List Bool}
    (h : stateGoto prefixes R = none) : R ∉ prefixes := by
  unfold stateGoto at h
  by_cases hm : R ∈ prefixes
  · rw [if_pos hm] at h
    exact Option.noConfusion h
  · exact hm

lemma fixedBits_split8 (v : Nat) :
    fixedBits 8 v = fixedBits 4 (v >>> 4) ++ fixedBits 4 (v &&& 15) := by
  have h15 : (15 : Nat) = 2 ^ 4 - 1 := rfl
  simp only [fixedBits, show List.range 8 = [0, 1, 2, 3, 4, 5, 6, 7] from rfl,
    show List.range 4 = [0, 1, 2, 3] from rfl, List.map_cons, List.map_nil,
    List.cons_append, List.nil_append, Nat.testBit_shiftRight, h15,
    Nat.and_pow_two_sub_one_eq_mod, Nat.testBit_mod_two_pow]
  norm_num


lemma bytesToBits_nil (buffer : List Nat) (p e : Nat) (h : e ≤ p) :
    bytesToBits buffer p e = [] := by
  unfold bytesToBits
  rw [show e - p = 0 by omega]
  rfl

lemma bytesToBits_cons (buffer : List Nat) (p e : Nat) (hpe : p < e) :
    bytesToBits buffer p e =
      fixedBits 8 (buffer.getD p 0) ++ bytesToBits buffer (p + 1) e := by
  unfold bytesToBits
  rw [show e - p = (e - (p + 1)) + 1 by omega, List.range'_succ]
  rw [List.map_cons, List.flatten_cons]

lemma getD_lt_256 {buffer : List Nat} (hbytes : ∀ b ∈ buffer, b < 256) (p : Nat) :
    buffer.getD p 0 < 256 := by
  rcases Nat.lt_or_ge p buffer.length with h | h
  · rw [List.getD_eq_get buffer 0 h]
    exact hbytes _ (buffer.get_mem p h)
  · rw [List.getD_eq_default buffer 0 h]
    omega

lemma decodeBufferLoop_ok (table : Table) (hpf : PrefixFree table)
    (hne : ∀ kv ∈ table, kv.1 ≠ []) {decoder : List HuffState}
    (hdec : prepareDecoder table = some decoder)
    (buffer : List Nat) (hbytes : ∀ b ∈ buffer, b < 256) (e : Nat) :
    ∀ fuel p st r s out,
      e ≤ p + fuel →
      s ∈ buildPrefixes table →
      mkState table (buildPrefixes table) s = some st →
      decodeBufferLoop decoder buffer e fuel p st r = .ok out →
      ∃ E R, greedyStrip table (s ++ bytesToBits buffer p e) = some (E, R) ∧
        out = r ++ E := by
  intro fuel
  induction fuel with
  | zero =>
    intro p st r s out hfuel hs hmk hrun
    simp only [decodeBufferLoop] at hrun
    rw [if_neg (by omega)] at hrun
    injection hrun with hout
    rw [bytesToBits_nil buffer p e (by omega), List.append_nil]
    exact ⟨[], s, greedyStrip_no_match table s (no_key_prefix_of_state table hpf hne hs),
      by rw [← hout, List.append_nil]⟩
  | succ fuel ih =>
    intro p st r s out hfuel hs hmk hrun
    simp only [decodeBufferLoop] at hrun
    by_cases hpe : p < e
    case neg =>
      rw [if_neg hpe] at hrun
      injection hrun with hout
      rw [bytesToBits_nil buffer p e (by omega), List.append_nil]
      exact ⟨[], s, greedyStrip_no_match table s (no_key_prefix_of_state table hpf hne hs),
        by rw [← hout, List.append_nil]⟩
    case pos =>
      rw [if_pos hpe] at hrun
      set v := buffer.getD p 0 with hv
      have hv256 : v < 256 := getD_lt_256 hbytes p
      have hhi : v >>> 4 < 16 := by
        rw [Nat.shiftRight_eq_div_pow]
        omega
      have hlo : v &&& 0xF < 16 := Nat.lt_succ_of_le Nat.and_le_right
      have hhi4 : v >>> 4 < 2 ^ 4 := by
        rw [show (2 : Nat) ^ 4 = 16 from rfl]
        exact hhi
      have hlo4 : v &&& 0xF < 2 ^ 4 := by
        rw [show (2 : Nat) ^ 4 = 16 from rfl]
        exact hlo
      obtain ⟨hpfx, hfacts⟩ := mkState_facts hmk
      obtain ⟨E1, R1, hg1, hemit1, hgoto1⟩ := hfacts (v >>> 4) hhi
      rw [jsCodeString_eq_fixedBits 4 (v >>> 4) (by norm_num) hhi4] at hg1
      rw [hemit1, hgoto1] at hrun
      have hR1resid := greedyStrip_resid table hne (s ++ fixedBits 4 (v >>> 4)).length
        (s ++ fixedBits 4 (v >>> 4)) E1 R1 (Nat.le_refl _) hg1
      cases hsg1 : stateGoto (buildPrefixes table) R1 with
      | some g =>
        rw [hsg1] at hrun
        dsimp only at hrun
        obtain ⟨hgp, hgmem⟩ := stateGoto_some hsg1
        obtain ⟨st1, hst1, hmk1⟩ := prepareDecoder_facts hdec g R1 hgp
        rw [hst1] at hrun
        dsimp only at hrun
        obtain ⟨hpfx1, hfacts1⟩ := mkState_facts hmk1
        obtain ⟨E2, R2, hg2, hemit2, hgoto2⟩ := hfacts1 (v &&& 0xF) hlo
        rw [jsCodeString_eq_fixedBits 4 (v &&& 0xF) (by norm_num) hlo4] at hg2
        rw [hemit2, hgoto2] at hrun
        have hR2resid := greedyStrip_resid table hne (R1 ++ fixedBits 4 (v &&& 0xF)).length
          (R1 ++ fixedBits 4 (v &&& 0xF)) E2 R2 (Nat.le_refl _) hg2
        cases hsg2 : stateGoto (buildPrefixes table) R2 with
        | some g2 =>
          rw [hsg2] at hrun
          dsimp only at hrun
          obtain ⟨hgp2, hgmem2⟩ := stateGoto_some hsg2
          obtain ⟨st2, hst2, hmk2⟩ := prepareDecoder_facts hdec g2 R2 hgp2
          rw [hst2] at hrun
          dsimp only at hrun
          obtain ⟨E3, R3, hg3, hout⟩ := ih (p + 1) st2 (r ++ E1 ++ E2) R2 out
            (by omega) hgmem2 hmk2 hrun
          have hmid : greedyStrip table
              ((R1 ++ fixedBits 4 (v &&& 0xF)) ++ bytesToBits buffer (p + 1) e) =
              some (E2 ++ E3, R3) :=
            greedyStrip_append table hpf hne (R1 ++ fixedBits 4 (v &&& 0xF)).length
              (R1 ++ fixedBits 4 (v &&& 0xF)) (Nat.le_refl _)
              (bytesToBits buffer (p + 1) e) E2 R2 E3 R3 hg2 hg3
          have houter : greedyStrip table
              ((s ++ fixedBits 4 (v >>> 4)) ++
                (fixedBits 4 (v &&& 0xF) ++ bytesToBits buffer (p + 1) e)) =
              some (E1 ++ (E2 ++ E3), R3) :=
            greedyStrip_append table hpf hne (s ++ fixedBits 4 (v >>> 4)).length
              (s ++ fixedBits 4 (v >>> 4)) (Nat.le_refl _)
              (fixedBits 4 (v &&& 0xF) ++ bytesToBits buffer (p + 1) e) E1 R1
              (E2 ++ E3) R3 hg1 (by rw [← List.append_assoc]; exact hmid)
          refine ⟨E1 ++ (E2 ++ E3), R3, ?_, ?_⟩
          · rw [bytesToBits_cons buffer p e hpe, fixedBits_split8 v]
            rw [show s ++ ((fixedBits 4 (v >>> 4) ++ fixedBits 4 (v &&& 0xF)) ++
                bytesToBits buffer (p + 1) e) =
              (s ++ fixedBits 4 (v >>> 4)) ++
                (fixedBits 4 (v &&& 0xF) ++ bytesToBits buffer (p + 1) e) by
              simp [List.append_assoc]]
            exact houter
          · rw [hout]
            simp [List.append_assoc]
        | none =>
          rw [hsg2] at hrun
          dsimp only at hrun
          by_cases hlast : p < e - 1
          · rw [if_pos hlast] at hrun
            exact Except.noConfusion hrun
          · rw [if_neg hlast] at hrun
            injection hrun with hout
            have hep : e = p + 1 := by omega
            refine ⟨E1 ++ E2, R2, ?_, by rw [← hout]; simp [List.append_assoc]⟩
            rw [bytesToBits_cons buffer p e hpe, fixedBits_split8 v, hep]
            rw [bytesToBits_nil buffer (p + 1) (p + 1) (Nat.le_refl _), List.append_nil]
            rw [show s ++ (fixedBits 4 (v >>> 4) ++ fixedBits 4 (v &&& 0xF)) =
              (s ++ fixedBits 4 (v >>> 4)) ++ fixedBits 4 (v &&& 0xF) by
              simp [List.append_assoc]]
            exact greedyStrip_append table hpf hne (s ++ fixedBits 4 (v >>> 4)).length
              (s ++ fixedBits 4 (v >>> 4)) (Nat.le_refl _)
              (fixedBits 4 (v &&& 0xF)) E1 R1 E2 R2 hg1 hg2
      | none =>
        rw [hsg1] at hrun
        dsimp only at hrun
        by_cases hlast : p < e - 1
        · rw [if_pos hlast] at hrun
          exact Except.noConfusion hrun
        · rw [if_neg hlast] at hrun
          injection hrun with hout
          have hep : e = p + 1 := by omega
          have hdead := dead_resid table hpf hne hR1resid (stateGoto_none hsg1)
            (fixedBits 4 (v &&& 0xF))
          have hg2dead : greedyStrip table (R1 ++ fixedBits 4 (v &&& 0xF)) =
              some ([], R1 ++ fixedBits 4 (v &&& 0xF)) :=
            greedyStrip_no_match table _ hdead
          refine ⟨E1, R1 ++ fixedBits 4 (v &&& 0xF), ?_, by rw [← hout]⟩
          rw [bytesToBits_cons buffer p e hpe, fixedBits_split8 v, hep]
          rw [bytesToBits_nil buffer (p + 1) (p + 1) (Nat.le_refl _), List.append_nil]
          rw [show s ++ (fixedBits 4 (v >>> 4) ++ fixedBits 4 (v &&& 0xF)) =
            (s ++ fixedBits 4 (v >>> 4)) ++ fixedBits 4 (v &&& 0xF) by
            simp [List.append_assoc]]
          have := greedyStrip_append table hpf hne (s ++ fixedBits 4 (v >>> 4)).length
            (s ++ fixedBits 4 (v >>> 4)) (Nat.le_refl _)
            (fixedBits 4 (v &&& 0xF)) E1 R1 [] (R1 ++ fixedBits 4 (v &&& 0xF)) hg1 hg2dead
          simpa using this


lemma buildPrefixes_get0 (table : Table) : (buildPrefixes table).get? 0 = some [] := by
  have grow : ∀ (l : List (List Bool)) (acc : List (List Bool)),
      ∃ t, l.foldl (fun acc p => if p ∈ acc then acc else acc ++ [p]) acc = acc ++ t := by
    intro l
    induction l with
    | nil => intro acc; exact ⟨[], by simp⟩
    | cons p tl ih =>
      intro acc
      simp only [List.foldl_cons]
      by_cases hp : p ∈ acc
      · rw [if_pos hp]
        exact ih acc
      · rw [if_neg hp]
        obtain ⟨t, ht⟩ := ih (acc ++ [p])
        exact ⟨[p] ++ t, by rw [ht, List.append_assoc]⟩
  have grow2 : ∀ (t : Table) (acc : List (List Bool)),
      ∃ u, t.foldl (fun acc kv =>
        (properPrefixesOf kv.1).foldl
          (fun acc p => if p ∈ acc then acc else acc ++ [p]) acc) acc = acc ++ u := by
    intro t
    induction t with
    | nil => intro acc; exact ⟨[], by simp⟩
    | cons kv tl ih =>
      intro acc
      simp only [List.foldl_cons]
      obtain ⟨t1, ht1⟩ := grow (properPrefixesOf kv.1) acc
      rw [ht1]
      obtain ⟨t2, ht2⟩ := ih (acc ++ t1)
      exact ⟨t1 ++ t2, by rw [ht2, List.append_assoc]⟩
  unfold buildPrefixes
  obtain ⟨u, hu⟩ := grow2 table [[]]
  rw [hu]
  rfl


/-- C2: decodeBuffer over the prepareDecoder DFA emits exactly the symbols of
naive iterated longest-prefix matching of the buffer's bit sequence. -/
theorem c2_dfa_matches_naive_longest_prefix
    (table : Table) (buffer : List Nat) (start e : Nat)
    (decoder : List HuffState) (out : List Nat)
    (hpf : PrefixFree table)
    (hne : ∀ kv ∈ table, kv.1 ≠ [])
    (hbytes : ∀ b ∈ buffer, b < 256)
    (hdec : prepareDecoder table = some decoder)
    (hrun : decodeBuffer buffer start e decoder = .ok out) :
    out = naiveDecode table (bytesToBits buffer start e) := by
  unfold decodeBuffer at hrun
  obtain ⟨st0, hst0, hmk0⟩ := prepareDecoder_facts hdec 0 [] (buildPrefixes_get0 table)
  rw [hst0] at hrun
  obtain ⟨E, R, hg, hout⟩ := decodeBufferLoop_ok table hpf hne hdec buffer hbytes e
    (e - start) start st0 [] [] out (by omega) (nil_mem_buildPrefixes table) hmk0 hrun
  rw [List.nil_append] at hg
  rw [hout, List.nil_append]
  exact (naiveDecode_eq_greedy table hpf hne _ E R hg).symm

def scenarioDecoder : List HuffState := (prepareDecoder scenarioTable).getD []

theorem c2_dfa_matches_naive_longest_prefix_witness :
    decodeBuffer [0x00, 0x4F] 0 2 scenarioDecoder = .ok [1, 1, 1, 1, 2, 3] ∧
    [1, 1, 1, 1, 2, 3] = naiveDecode scenarioTable (bytesToBits [0x00, 0x4F] 0 2) :=
  ⟨by rfl,
   c2_dfa_matches_naive_longest_prefix scenarioTable [0x00, 0x4F] 0 2 scenarioDecoder
     [1, 1, 1, 1, 2, 3] (by unfold PrefixFree; decide) (by decide) (by decide) (by rfl) (by rfl)⟩

end Huffman


/-! ### C5: per-segment reset of predictors and statistics areas -/

/-- `JPEG.prototype.resetArithmeticStatisticsAreas`: reset every DC and AC
statistics area in place. -/
def resetArithmeticStatisticsAreas (dcStats acStats : List Statistics) :
    List Statistics × List Statistics :=
  (dcStats.map Statistics.reset, acStats.map Statistics.reset)

/-- The state with which an entropy-coded segment begins decoding:
the locals built by the first lines of `readArithmeticCodedSegment`
(`prevDcCoeffs`/`prevDcDeltas` freshly filled with 0) together with the
statistics areas as the caller left them. -/
structure ArithSegEntry where
  prevDcCoeffs : List Int
  prevDcDeltas : List Int
  dcStats : List Statistics
  acStats : List Statistics

/-- `readArithmeticCodedSegment`'s entry state:
`new Array(n).fill(0)` for both predictor arrays. -/
def readArithmeticCodedSegmentEntry (nComponents : Nat)
    (dcStats acStats : List Statistics) : ArithSegEntry :=
  { prevDcCoeffs := List.replicate nComponents 0
    prevDcDeltas := List.replicate nComponents 0
    dcStats := dcStats
    acStats := acStats }

/-- The entropy-coded-segment loop of `readBaselineScan` for an
arithmetic-coded scan, abstracted over the segments (one list of bytes per
ECS, scan start first, then one per restart marker) and over the effect
`segEffect` that decoding one segment has on the statistics areas.  Returns
the entry state of every segment in order. -/
def baselineArithScanEntries
    (segEffect : ArithSegEntry → List Nat → List Statistics × List Statistics)
    (nComponents : Nat) :
    List (List Nat) → List Statistics × List Statistics → List ArithSegEntry
  | [], _ => []
  | ecs :: rest, (dcStats, acStats) =>
    let r := resetArithmeticStatisticsAreas dcStats acStats
    let entry := readArithmeticCodedSegmentEntry nComponents r.1 r.2
    entry :: baselineArithScanEntries segEffect nComponents rest (segEffect entry ecs)

/-- `readHuffmanCodedSegment`'s fresh DC predictor array. -/
def readHuffmanCodedSegmentPrevDcCoeffs (nComponents : Nat) : List Int :=
  List.replicate nComponents 0

/-- All-reset statistics: every context is in state 0 with MPS `false`. -/
def StatisticsAllReset (s : Statistics) : Prop :=
  (∀ x ∈ s.states, x = 0) ∧ ∀ b ∈ s.moreProbableSymbol, b = false

lemma reset_allReset (s : Statistics) : StatisticsAllReset s.reset := by
  constructor
  · intro x hx
    simp only [Statistics.reset, List.mem_map] at hx
    obtain ⟨y, _, hy⟩ := hx
    exact hy.symm
  · intro b hb
    simp only [Statistics.reset, List.mem_map] at hb
    obtain ⟨y, _, hy⟩ := hb
    exact hy.symm

/-- C5: at the start of every entropy-coded segment of a baseline scan, the
DC predictors are all 0 (for each component), and for arithmetic scans every
statistics area is fully reset before any block is decoded. -/
theorem c5_segment_entry_state_reset
    (segEffect : ArithSegEntry → List Nat → List Statistics × List Statistics)
    (nComponents : Nat) (ecss : List (List Nat))
    (stats0 : List Statistics × List Statistics) :
    (∀ entry ∈ baselineArithScanEntries segEffect nComponents ecss stats0,
      entry.prevDcCoeffs = List.replicate nComponents 0 ∧
      entry.prevDcDeltas = List.replicate nComponents 0 ∧
      (∀ s ∈ entry.dcStats, StatisticsAllReset s) ∧
      (∀ s ∈ entry.acStats, StatisticsAllReset s)) ∧
    readHuffmanCodedSegmentPrevDcCoeffs nComponents = List.replicate nComponents 0 := by
  constructor
  case right => rfl
  case left =>
    induction ecss generalizing stats0 with
    | nil => intro entry h; simp [baselineArithScanEntries] at h
    | cons ecs rest ih =>
      intro entry h
      obtain ⟨dcStats, acStats⟩ := stats0
      simp only [baselineArithScanEntries, List.mem_cons] at h
      rcases h with rfl | h
      · refine ⟨rfl, rfl, ?_, ?_⟩
        · intro s hs
          simp only [readArithmeticCodedSegmentEntry, resetArithmeticStatisticsAreas,
            List.mem_map] at hs
          obtain ⟨t, _, rfl⟩ := hs
          exact reset_allReset t
        · intro s hs
          simp only [readArithmeticCodedSegmentEntry, resetArithmeticStatisticsAreas,
            List.mem_map] at hs
          obtain ⟨t, _, rfl⟩ := hs
          exact reset_allReset t
      · exact ih _ entry h

theorem c5_segment_entry_state_reset_witness :
    ∀ entry ∈ baselineArithScanEntries (fun e _ => (e.dcStats, e.acStats)) 2
      [[0xFF, 0xFF], [0x00]] ([Statistics.init 49], [Statistics.init 245]),
      entry.prevDcCoeffs = List.replicate 2 0 ∧
      entry.prevDcDeltas = List.replicate 2 0 ∧
      (∀ s ∈ entry.dcStats, StatisticsAllReset s) ∧
      (∀ s ∈ entry.acStats, StatisticsAllReset s) :=
  (c5_segment_entry_state_reset (fun e _ => (e.dcStats, e.acStats)) 2
    [[0xFF, 0xFF], [0x00]] ([Statistics.init 49], [Statistics.init 245])).1

/-! ### C8: raster bounds and discarding of out-of-range blocks -/

/-- `Math.ceil(a / b)` on naturals (for `b > 0`). -/
def ceilDiv (a b : Nat) : Nat := (a + b - 1) / b

/-- The raster byte indices written when painting MCU `mcuNumber`: both
`paintGrayscalePixels` and `paintYCbCrPixels` (via `convertYCbCrtoRGB`)
write `rasterIndex`, `rasterIndex+1` and `rasterIndex+2` for each pixel,
with the bounds computed in `paintPixels`. -/
def paintWriteIndices (w h mpw mph mcuNumber : Nat) : List Nat :=
  let mcusPerRow := ceilDiv w mpw
  let xStart := (mcuNumber % mcusPerRow) * mpw
  let yStart := (mcuNumber / mcusPerRow) * mph
  let xEnd := min (xStart + mpw) w
  let yEnd := min (yStart + mph) h
  ((List.range (yEnd - yStart)).map (fun y =>
    ((List.range (xEnd - xStart)).map (fun x =>
      [((y + yStart) * w + x + xStart) * 3,
       ((y + yStart) * w + x + xStart) * 3 + 1,
       ((y + yStart) * w + x + xStart) * 3 + 2])).flatten)).flatten

/-- `Buffer.alloc(3 * width * height)` in `JPEG.fromBytes`. -/
def allocRaster (w h : Nat) : List Nat := List.replicate (3 * w * h) 0

/-- The per-component block loop state of `readHuffmanCodedSegment`:
`k` is the ordinal of the next block decoded from the segment's bit stream,
`prevDcCoeff` the component's DC predictor, `coeffs` the component's
coefficient grid (rows of blocks). -/
structure HuffSegBlockState where
  k : Nat
  prevDcCoeff : Int
  coeffs : List (List (List Int))

/-- One iteration of the `for i / for j` block loop of
`readHuffmanCodedSegment`: decode the next block, update the predictor from
`block[0]`, then either discard the block (`continue`) if its coordinates
fall outside the component's grid, or store it. -/
def huffBlockStep (blocksPerCol blocksPerRow rowIndex colIndex : Nat)
    (blockAt : Nat → List Int) (st : HuffSegBlockState) (ij : Nat × Nat) :
    HuffSegBlockState :=
  let block := blockAt st.k
  let prevDcCoeff := block.getD 0 0
  if blocksPerCol ≤ rowIndex + ij.1 ∨ blocksPerRow ≤ colIndex + ij.2 then
    { k := st.k + 1, prevDcCoeff := prevDcCoeff, coeffs := st.coeffs }
  else
    { k := st.k + 1, prevDcCoeff := prevDcCoeff,
      coeffs := st.coeffs.set (rowIndex + ij.1)
        ((st.coeffs.getD (rowIndex + ij.1) []).set (colIndex + ij.2) block) }

/-- The `(i, j)` iteration order of the block loop. -/
def huffComponentBlocks (vertBlocks horizBlocks : Nat) : List (Nat × Nat) :=
  ((List.range vertBlocks).map (fun i =>
    (List.range horizBlocks).map (fun j => (i, j)))).flatten

def huffComponentLoop (blocksPerCol blocksPerRow rowIndex colIndex : Nat)
    (blockAt : Nat → List Int) (vertBlocks horizBlocks : Nat)
    (st : HuffSegBlockState) : HuffSegBlockState :=
  (huffComponentBlocks vertBlocks horizBlocks).foldl
    (huffBlockStep blocksPerCol blocksPerRow rowIndex colIndex blockAt) st


lemma allocRaster_length (w h : Nat) : (allocRaster w h).length = 3 * w * h :=
  List.length_replicate _ _

lemma paintWriteIndices_bound (w h mpw mph mcuNumber : Nat) :
    ∀ i ∈ paintWriteIndices w h mpw mph mcuNumber, i < 3 * w * h := by
  intro i hi
  unfold paintWriteIndices at hi
  dsimp only at hi
  simp only [List.mem_flatten, List.mem_map] at hi
  obtain ⟨row, ⟨y, hy, rfl⟩, hi⟩ := hi
  simp only [List.mem_flatten, List.mem_map] at hi
  obtain ⟨cell, ⟨x, hx, rfl⟩, hi⟩ := hi
  rw [List.mem_range] at hy hx
  have hyh : y + (mcuNumber / ceilDiv w mpw) * mph < h := by
    have hm := Nat.min_le_right ((mcuNumber / ceilDiv w mpw) * mph + mph) h
    omega
  have hxw : x + (mcuNumber % ceilDiv w mpw) * mpw < w := by
    have hm := Nat.min_le_right ((mcuNumber % ceilDiv w mpw) * mpw + mpw) w
    omega
  set ys := (mcuNumber / ceilDiv w mpw) * mph
  set xs := (mcuNumber % ceilDiv w mpw) * mpw
  have hcell : (y + ys) * w + x + xs + 1 ≤ w * h := by
    have h1 : (y + ys) * w + (x + xs) + 1 ≤ (y + ys) * w + w := by omega
    have h2 : (y + ys) * w + w = (y + ys + 1) * w := by
      rw [Nat.succ_mul]
    have h3 : (y + ys + 1) * w ≤ h * w := Nat.mul_le_mul_right w (by omega)
    rw [Nat.mul_comm h w] at h3
    omega
  have hgoal : 3 * w * h = 3 * (w * h) := Nat.mul_assoc 3 w h
  rw [hgoal]
  simp only [List.mem_cons, List.mem_singleton, List.not_mem_nil, or_false] at hi
  rcases hi with rfl | rfl | rfl <;> omega

lemma huffBlockStep_k (bpc bpr rowIndex colIndex : Nat) (blockAt : Nat → List Int)
    (st : HuffSegBlockState) (ij : Nat × Nat) :
    (huffBlockStep bpc bpr rowIndex colIndex blockAt st ij).k = st.k + 1 := by
  unfold huffBlockStep
  dsimp only
  split <;> rfl

lemma huffBlockStep_prevDc (bpc bpr rowIndex colIndex : Nat) (blockAt : Nat → List Int)
    (st : HuffSegBlockState) (ij : Nat × Nat) :
    (huffBlockStep bpc bpr rowIndex colIndex blockAt st ij).prevDcCoeff =
      (blockAt st.k).getD 0 0 := by
  unfold huffBlockStep
  dsimp only
  split <;> rfl

lemma huffBlockStep_discard (bpc bpr rowIndex colIndex : Nat) (blockAt : Nat → List Int)
    (st : HuffSegBlockState) (ij : Nat × Nat)
    (hout : bpc ≤ rowIndex + ij.1 ∨ bpr ≤ colIndex + ij.2) :
    (huffBlockStep bpc bpr rowIndex colIndex blockAt st ij).coeffs = st.coeffs := by
  unfold huffBlockStep
  dsimp only
  rw [if_pos hout]

lemma huffBlockStep_row_preserve (bpc bpr rowIndex colIndex : Nat)
    (blockAt : Nat → List Int) (st : HuffSegBlockState) (ij : Nat × Nat)
    (r : Nat) (hr : bpc ≤ r) :
    (huffBlockStep bpc bpr rowIndex colIndex blockAt st ij).coeffs.get? r =
      st.coeffs.get? r := by
  unfold huffBlockStep
  dsimp only
  split
  · rfl
  · rename_i hcond
    push_neg at hcond
    exact List.get?_set_ne _ _ (by omega)

lemma huffBlockStep_col_preserve (bpc bpr rowIndex colIndex : Nat)
    (blockAt : Nat → List Int) (st : HuffSegBlockState) (ij : Nat × Nat)
    (r c : Nat) (hc : bpr ≤ c) :
    ((huffBlockStep bpc bpr rowIndex colIndex blockAt st ij).coeffs.getD r []).get? c =
      (st.coeffs.getD r []).get? c := by
  unfold huffBlockStep
  dsimp only
  split
  · rfl
  · rename_i hcond
    push_neg at hcond
    obtain ⟨h1, h2⟩ := hcond
    by_cases hrr : rowIndex + ij.1 = r
    · subst hrr
      unfold List.getD
      rw [List.get?_set_eq]
      cases hgr : st.coeffs.get? (rowIndex + ij.1) with
      | none => rfl
      | some old =>
        simp only [Option.map_eq_map, Option.map_some', Option.getD_some]
        exact List.get?_set_ne _ _ (by omega)
    · unfold List.getD
      rw [List.get?_set_ne _ _ hrr]

lemma huffFold_row_preserve (bpc bpr rowIndex colIndex : Nat)
    (blockAt : Nat → List Int) :
    ∀ (l : List (Nat × Nat)) (st : HuffSegBlockState) (r : Nat), bpc ≤ r →
      ((l.foldl (huffBlockStep bpc bpr rowIndex colIndex blockAt) st).coeffs.get? r =
        st.coeffs.get? r) := by
  intro l
  induction l with
  | nil => intro st r _; rfl
  | cons x t ih =>
    intro st r hr
    rw [List.foldl_cons]
    rw [ih _ r hr]
    exact huffBlockStep_row_preserve bpc bpr rowIndex colIndex blockAt st x r hr

lemma huffFold_col_preserve (bpc bpr rowIndex colIndex : Nat)
    (blockAt : Nat → List Int) :
    ∀ (l : List (Nat × Nat)) (st : HuffSegBlockState) (r c : Nat), bpr ≤ c →
      (((l.foldl (huffBlockStep bpc bpr rowIndex colIndex blockAt) st).coeffs.getD r
          []).get? c = ((st.coeffs.getD r []).get? c)) := by
  intro l
  induction l with
  | nil => intro st r c _; rfl
  | cons x t ih =>
    intro st r c hc
    rw [List.foldl_cons]
    rw [ih _ r c hc]
    exact huffBlockStep_col_preserve bpc bpr rowIndex colIndex blockAt st x r c hc

lemma huffFold_predictor (bpc bpr rowIndex colIndex : Nat) (blockAt : Nat → List Int) :
    ∀ (l : List (Nat × Nat)) (st : HuffSegBlockState),
      ((l.foldl (huffBlockStep bpc bpr rowIndex colIndex blockAt) st).k =
        st.k + l.length) ∧
      (l ≠ [] →
        (l.foldl (huffBlockStep bpc bpr rowIndex colIndex blockAt) st).prevDcCoeff =
          (blockAt (st.k + l.length - 1)).getD 0 0) := by
  intro l
  induction l with
  | nil => intro st; exact ⟨by simp, fun h => absurd rfl h⟩
  | cons x t ih =>
    intro st
    rw [List.foldl_cons]
    obtain ⟨hk, hp⟩ := ih (huffBlockStep bpc bpr rowIndex colIndex blockAt st x)
    rw [huffBlockStep_k] at hk hp
    constructor
    · rw [hk]
      simp only [List.length_cons]
      omega
    · intro _
      cases t with
      | nil =>
        simp only [List.foldl_nil, List.length_cons, List.length_nil]
        rw [huffBlockStep_prevDc]
        norm_num
      | cons y t' =>
        rw [hp (by simp)]
        congr 2
        simp only [List.length_cons]
        omega


/-- C8: the decoded raster has exactly `3*w*h` bytes and every pixel-paint
write lands strictly below `3*w*h`; a block whose grid coordinates fall
outside the component's grid leaves the coefficient grid unchanged while
the DC predictor is still updated from it, and a whole block loop never
touches rows ≥ blocksPerCol or columns ≥ blocksPerRow. -/
theorem c8_raster_and_block_safety :
    (∀ w h : Nat, (allocRaster w h).length = 3 * w * h) ∧
    (∀ w h mpw mph mcuNumber : Nat,
      ∀ i ∈ paintWriteIndices w h mpw mph mcuNumber, i < 3 * w * h) ∧
    (∀ bpc bpr rowIndex colIndex : Nat, ∀ blockAt : Nat → List Int,
      ∀ st : HuffSegBlockState, ∀ ij : Nat × Nat,
      ((bpc ≤ rowIndex + ij.1 ∨ bpr ≤ colIndex + ij.2) →
        (huffBlockStep bpc bpr rowIndex colIndex blockAt st ij).coeffs = st.coeffs) ∧
      (huffBlockStep bpc bpr rowIndex colIndex blockAt st ij).prevDcCoeff =
        (blockAt st.k).getD 0 0) ∧
    (∀ bpc bpr rowIndex colIndex : Nat, ∀ blockAt : Nat → List Int,
      ∀ vB nB : Nat, ∀ st : HuffSegBlockState,
      (∀ r, bpc ≤ r →
        (huffComponentLoop bpc bpr rowIndex colIndex blockAt vB nB st).coeffs.get? r =
          st.coeffs.get? r) ∧
      (∀ r c, bpr ≤ c →
        ((huffComponentLoop bpc bpr rowIndex colIndex blockAt vB nB st).coeffs.getD r
            []).get? c = (st.coeffs.getD r []).get? c) ∧
      (huffComponentBlocks vB nB ≠ [] →
        (huffComponentLoop bpc bpr rowIndex colIndex blockAt vB nB st).prevDcCoeff =
          (blockAt (st.k + (huffComponentBlocks vB nB).length - 1)).getD 0 0)) := by
  refine ⟨allocRaster_length, paintWriteIndices_bound, ?_, ?_⟩
  · intro bpc bpr rowIndex colIndex blockAt st ij
    exact ⟨huffBlockStep_discard bpc bpr rowIndex colIndex blockAt st ij,
      huffBlockStep_prevDc bpc bpr rowIndex colIndex blockAt st ij⟩
  · intro bpc bpr rowIndex colIndex blockAt vB nB st
    refine ⟨?_, ?_, ?_⟩
    · intro r hr
      exact huffFold_row_preserve bpc bpr rowIndex colIndex blockAt _ st r hr
    · intro r c hc
      exact huffFold_col_preserve bpc bpr rowIndex colIndex blockAt _ st r c hc
    · intro hne
      exact (huffFold_predictor bpc bpr rowIndex colIndex blockAt _ st).2 hne

theorem c8_raster_and_block_safety_witness :
    (allocRaster 3 5).length = 3 * 3 * 5 ∧
    (12 ∈ paintWriteIndices 3 5 8 8 0 ∧ 12 < 3 * 3 * 5) ∧
    ((huffBlockStep 1 1 1 0 (fun _ => [7]) ⟨0, 0, [[[1]]]⟩ (0, 0)).coeffs = [[[1]]] ∧
     (huffBlockStep 1 1 1 0 (fun _ => [7]) ⟨0, 0, [[[1]]]⟩ (0, 0)).prevDcCoeff = 7) ∧
    ((huffComponentLoop 1 1 1 0 (fun k => ((k : Int) + 5) :: []) 2 2
        ⟨0, 0, [[[1]]]⟩).coeffs.get? 1 = ([[[1]]] : List (List (List Int))).get? 1 ∧
     (huffComponentLoop 1 1 1 0 (fun k => ((k : Int) + 5) :: []) 2 2
        ⟨0, 0, [[[1]]]⟩).prevDcCoeff = 8) :=
  ⟨c8_raster_and_block_safety.1 3 5,
   ⟨by decide, c8_raster_and_block_safety.2.1 3 5 8 8 0 12 (by decide)⟩,
   ⟨(c8_raster_and_block_safety.2.2.1 1 1 1 0 (fun _ => [7]) ⟨0, 0, [[[1]]]⟩ (0, 0)).1
      (by left; omega),
    ((c8_raster_and_block_safety.2.2.1 1 1 1 0 (fun _ => [7]) ⟨0, 0, [[[1]]]⟩ (0, 0)).2).trans
      (by rfl)⟩,
   ⟨((c8_raster_and_block_safety.2.2.2 1 1 1 0 (fun k => ((k : Int) + 5) :: []) 2 2
        ⟨0, 0, [[[1]]]⟩).1 1 (by omega)),
    (((c8_raster_and_block_safety.2.2.2 1 1 1 0 (fun k => ((k : Int) + 5) :: []) 2 2
        ⟨0, 0, [[[1]]]⟩).2.2 (by decide)).trans (by rfl))⟩⟩

end Jpeg
